import Mathlib

/-!
Verification of the Go rules engine in services/goGame.ts.

The board is modelled as a list of rows (`board[y][x]` in the source becomes
`getCell board ⟨x, y⟩`), JavaScript out-of-range indexing that yields
`undefined` becomes `Option.none`, and the `TypeError` thrown when indexing
into `undefined` becomes the explicit outcome `PlayOutcome.thrown`.
-/

set_option maxHeartbeats 1000000

inductive PlayerColor where
  | Black
  | White
  | Empty
deriving DecidableEq, Repr

structure Coordinate where
  x : Nat
  y : Nat
deriving DecidableEq, Repr

structure GameState where
  board : List (List PlayerColor)
  boardSize : Nat
  currentPlayer : PlayerColor
  moveHistory : List Coordinate
  capturedBlack : Nat
  capturedWhite : Nat
  lastMove : Option Coordinate
  isGameOver : Bool
deriving DecidableEq, Repr

abbrev Board := List (List PlayerColor)

/-- `createInitialState` from the source: an empty size×size grid, Black to
move, no history, no captures, game not over. -/
def createInitialState (size : Nat := 19) : GameState :=
  { board := List.replicate size (List.replicate size PlayerColor.Empty)
    boardSize := size
    currentPlayer := PlayerColor.Black
    moveHistory := []
    capturedBlack := 0
    capturedWhite := 0
    lastMove := none
    isGameOver := false }

/-- Reading `board[y][x]`; out-of-range access gives `none` (JS: `undefined`). -/
def getCell (b : Board) (c : Coordinate) : Option PlayerColor :=
  (b.get? c.y).bind fun row => row.get? c.x

/-- Writing `board[y][x] = v` for in-range coordinates (all writes in the
source happen at in-range coordinates). -/
def setCell (b : Board) (yy xx : Nat) (v : PlayerColor) : Board :=
  match b.get? yy with
  | some row => b.set yy (row.set xx v)
  | none => b

/-- `isValidBound` from the source, on the (possibly negative) intermediate
integer coordinates. -/
def isValidBound (p : Int × Int) (size : Nat) : Prop :=
  0 ≤ p.1 ∧ p.1 < (size : Int) ∧ 0 ≤ p.2 ∧ p.2 < (size : Int)

instance (p : Int × Int) (size : Nat) : Decidable (isValidBound p size) := by
  unfold isValidBound; infer_instance

/-- `getNeighbors` from the source: the four orthogonal offsets, filtered to
the board. -/
def getNeighbors (c : Coordinate) (size : Nat) : List Coordinate :=
  let dirs : List (Int × Int) := [(0, 1), (0, -1), (1, 0), (-1, 0)]
  (dirs.map fun d => ((c.x : Int) + d.1, (c.y : Int) + d.2)).filterMap
    fun p => if isValidBound p size then some ⟨p.1.toNat, p.2.toNat⟩ else none

/-- One iteration of the neighbor scan inside the BFS loop of
`getGroupLiberties`: empty cells are skipped (the dead branch in the source),
unvisited same-colored cells are enqueued and marked visited. -/
def bfsStep (board : Board) (color : PlayerColor)
    (st : List Coordinate × Finset Coordinate) (n : Coordinate) :
    List Coordinate × Finset Coordinate :=
  let cell := getCell board n
  if cell = some PlayerColor.Empty then st
  else if cell = some color ∧ n ∉ st.2 then (st.1 ++ [n], insert n st.2)
  else st

/-- The in-range coordinates of a `size`-sized board. -/
def allCells (size : Nat) : Finset Coordinate :=
  (Finset.range size ×ˢ Finset.range size).image fun p => ⟨p.1, p.2⟩

lemma mem_allCells {size : Nat} {c : Coordinate} :
    c ∈ allCells size ↔ c.x < size ∧ c.y < size := by
  unfold allCells
  constructor
  · intro h
    rcases Finset.mem_image.mp h with ⟨p, hp, rfl⟩
    rcases Finset.mem_product.mp hp with ⟨h1, h2⟩
    exact ⟨Finset.mem_range.mp h1, Finset.mem_range.mp h2⟩
  · intro ⟨h1, h2⟩
    exact Finset.mem_image.mpr ⟨(c.x, c.y), Finset.mem_product.mpr
      ⟨Finset.mem_range.mpr h1, Finset.mem_range.mpr h2⟩, rfl⟩

lemma mem_getNeighbors {c n : Coordinate} {size : Nat} :
    n ∈ getNeighbors c size ↔
      n.x < size ∧ n.y < size ∧
        ((n.x = c.x ∧ (n.y = c.y + 1 ∨ n.y + 1 = c.y)) ∨
         (n.y = c.y ∧ (n.x = c.x + 1 ∨ n.x + 1 = c.x))) := by
  have hmem : n ∈ getNeighbors c size ↔
      ∃ p : Int × Int,
        (p = ((c.x : Int), (c.y : Int) + 1) ∨ p = ((c.x : Int), (c.y : Int) - 1) ∨
         p = ((c.x : Int) + 1, (c.y : Int)) ∨ p = ((c.x : Int) - 1, (c.y : Int))) ∧
        isValidBound p size ∧ n = ⟨p.1.toNat, p.2.toNat⟩ := by
    unfold getNeighbors
    rw [List.mem_filterMap]
    constructor
    · rintro ⟨p, hp, hfp⟩
      split at hfp
      · refine ⟨p, ?_, by assumption, by injection hfp with h; exact h.symm⟩
        simp only [List.mem_map, List.mem_cons, List.mem_singleton] at hp
        rcases hp with ⟨d, hd, rfl⟩
        rcases hd with rfl | rfl | rfl | rfl | h
        · left; simp
        · right; left; simp [sub_eq_add_neg]
        · right; right; left; simp
        · right; right; right; simp [sub_eq_add_neg]
        · cases h
      · cases hfp
    · rintro ⟨p, hp, hv, rfl⟩
      refine ⟨p, ?_, if_pos hv⟩
      simp only [List.mem_map, List.mem_cons, List.mem_singleton]
      rcases hp with rfl | rfl | rfl | rfl
      · exact ⟨(0, 1), by simp, by simp⟩
      · exact ⟨(0, -1), by simp [sub_eq_add_neg]⟩
      · exact ⟨(1, 0), by simp, by simp⟩
      · exact ⟨(-1, 0), by simp [sub_eq_add_neg]⟩
  rw [hmem]
  unfold isValidBound
  constructor
  · rintro ⟨p, hp, ⟨h1, h2, h3, h4⟩, rfl⟩
    rcases hp with rfl | rfl | rfl | rfl <;>
      refine ⟨by simp; omega, by simp; omega, ?_⟩
    · left; constructor; · simp
      · left; simp
    · left; constructor; · simp
      · right; simp; omega
    · right; constructor; · simp
      · left; simp
    · right; constructor; · simp
      · right; simp; omega
  · rintro ⟨hx, hy, hcase⟩
    rcases hcase with ⟨hxe, hyc | hyc⟩ | ⟨hye, hxc | hxc⟩
    · refine ⟨((c.x : Int), (c.y : Int) + 1), by simp, by constructor <;> simp <;> omega, ?_⟩
      cases n; simp_all
    · refine ⟨((c.x : Int), (c.y : Int) - 1), by simp, by constructor <;> simp <;> omega, ?_⟩
      cases n; simp_all; omega
    · refine ⟨((c.x : Int) + 1, (c.y : Int)), by simp, by constructor <;> simp <;> omega, ?_⟩
      cases n; simp_all
    · refine ⟨((c.x : Int) - 1, (c.y : Int)), by simp, by constructor <;> simp <;> omega, ?_⟩
      cases n; simp_all; omega

lemma getNeighbors_mem_allCells {c n : Coordinate} {size : Nat}
    (h : n ∈ getNeighbors c size) : n ∈ allCells size :=
  mem_allCells.mpr ⟨(mem_getNeighbors.mp h).1, (mem_getNeighbors.mp h).2.1⟩

/-- What one pass of the neighbor scan does to the queue and the visited set:
it appends a duplicate-free list `e` of fresh same-colored neighbors, marking
exactly those visited, and afterwards every same-colored neighbor is visited. -/
lemma bfsStep_foldl_spec (board : Board) (color : PlayerColor) :
    ∀ (ns q : List Coordinate) (v : Finset Coordinate),
      ∃ e : List Coordinate,
        ns.foldl (bfsStep board color) (q, v) = (q ++ e, v ∪ e.toFinset) ∧
        e.Nodup ∧
        (∀ c ∈ e, c ∉ v ∧ c ∈ ns ∧ getCell board c = some color ∧
          getCell board c ≠ some PlayerColor.Empty) ∧
        (∀ c ∈ ns, getCell board c = some color →
          getCell board c ≠ some PlayerColor.Empty → c ∈ v ∨ c ∈ e) := by
  intro ns
  induction ns with
  | nil =>
    intro q v
    exact ⟨[], by simp, by simp, by simp, by simp⟩
  | cons n ns ih =>
    intro q v
    by_cases h1 : getCell board n = some PlayerColor.Empty
    · have hstep : bfsStep board color (q, v) n = (q, v) := by
        simp [bfsStep, h1]
      rcases ih q v with ⟨e, heq, hnd, hmem, hall⟩
      refine ⟨e, ?_, hnd, ?_, ?_⟩
      · simpa [hstep] using heq
      · exact fun c hc => ⟨(hmem c hc).1, List.mem_cons_of_mem n (hmem c hc).2.1,
          (hmem c hc).2.2.1, (hmem c hc).2.2.2⟩
      · intro c hc hcol hne
        rcases List.mem_cons.mp hc with rfl | hc'
        · exact absurd h1 (by rw [hcol] at hne ⊢; exact hne)
        · exact hall c hc' hcol hne
    · by_cases h2 : getCell board n = some color ∧ n ∉ v
      · have hstep : bfsStep board color (q, v) n = (q ++ [n], insert n v) := by
          simp only [bfsStep]
          rw [if_neg h1, if_pos h2]
        rcases ih (q ++ [n]) (insert n v) with ⟨e, heq, hnd, hmem, hall⟩
        refine ⟨n :: e, ?_, ?_, ?_, ?_⟩
        · have : List.foldl (bfsStep board color) (q, v) (n :: ns) =
            List.foldl (bfsStep board color) (q ++ [n], insert n v) ns := by
            simp [List.foldl_cons, hstep]
          rw [this, heq]
          simp only [Prod.mk.injEq]
          constructor
          · simp
          · ext a
            simp only [List.toFinset_cons, Finset.mem_union, Finset.mem_insert]
            tauto
        · refine List.nodup_cons.mpr ⟨?_, hnd⟩
          intro hn
          exact (hmem n hn).1 (Finset.mem_insert_self n v)
        · intro c hc
          rcases List.mem_cons.mp hc with rfl | hc'
          · exact ⟨h2.2, List.mem_cons_self _ _, h2.1, h1⟩
          · refine ⟨fun hcv => (hmem c hc').1 (Finset.mem_insert_of_mem hcv),
              List.mem_cons_of_mem n (hmem c hc').2.1,
              (hmem c hc').2.2.1, (hmem c hc').2.2.2⟩
        · intro c hc hcol hne
          rcases List.mem_cons.mp hc with rfl | hc'
          · exact Or.inr (List.mem_cons_self c e)
          · rcases hall c hc' hcol hne with hcv | hce
            · rcases Finset.mem_insert.mp hcv with rfl | hcv'
              · exact Or.inr (List.mem_cons_self c e)
              · exact Or.inl hcv'
            · exact Or.inr (List.mem_cons_of_mem n hce)
      · have hstep : bfsStep board color (q, v) n = (q, v) := by
          simp only [bfsStep]
          rw [if_neg h1, if_neg h2]
        rcases ih q v with ⟨e, heq, hnd, hmem, hall⟩
        refine ⟨e, ?_, hnd, ?_, ?_⟩
        · simpa [hstep] using heq
        · exact fun c hc => ⟨(hmem c hc).1, List.mem_cons_of_mem n (hmem c hc).2.1,
            (hmem c hc).2.2.1, (hmem c hc).2.2.2⟩
        · intro c hc hcol hne
          rcases List.mem_cons.mp hc with rfl | hc'
          · left
            by_contra hcv
            exact h2 ⟨hcol, hcv⟩
          · exact hall c hc' hcol hne

/-- The BFS measure (twice the unvisited in-range cells plus the queue
length) strictly decreases at each loop iteration. -/
lemma bfs_measure_lt (size : Nat) (visited : Finset Coordinate)
    (rest e : List Coordinate) (current : Coordinate)
    (hnd : e.Nodup) (hsub : e.toFinset ⊆ allCells size \ visited) :
    2 * ((allCells size) \ (visited ∪ e.toFinset)).card + (rest ++ e).length <
      2 * ((allCells size) \ visited).card + (current :: rest).length := by
  have hdiff : allCells size \ (visited ∪ e.toFinset) =
      (allCells size \ visited) \ e.toFinset := by
    ext a
    simp only [Finset.mem_sdiff, Finset.mem_union]
    tauto
  have hcard := Finset.card_sdiff hsub
  have hle := Finset.card_le_card hsub
  have hlen : e.toFinset.card = e.length := by
    rw [List.toFinset_card_of_nodup hnd]
  rw [hdiff, hcard, hlen]
  simp only [List.length_append, List.length_cons]
  omega

/-- The BFS loop of `getGroupLiberties`: pop the head of the queue, append it
to the group, scan its neighbors (enqueueing fresh same-colored ones). -/
def bfsLoop (board : Board) (color : PlayerColor) :
    List Coordinate → Finset Coordinate → List Coordinate → List Coordinate
  | [], _, group => group
  | current :: rest, visited, group =>
    let st := (getNeighbors current board.length).foldl
      (bfsStep board color) (rest, visited)
    bfsLoop board color st.1 st.2 (group ++ [current])
termination_by queue visited _ =>
  2 * ((allCells board.length) \ visited).card + queue.length
decreasing_by
  rcases bfsStep_foldl_spec board color (getNeighbors current board.length)
    rest visited with ⟨e, heq, hnd, hmem, -⟩
  show 2 * ((allCells board.length) \
      ((getNeighbors current board.length).foldl
        (bfsStep board color) (rest, visited)).2).card +
      ((getNeighbors current board.length).foldl
        (bfsStep board color) (rest, visited)).1.length <
    2 * ((allCells board.length) \ visited).card + (current :: rest).length
  rw [heq]
  refine bfs_measure_lt board.length visited rest e current hnd ?_
  intro a ha
  rw [List.mem_toFinset] at ha
  exact Finset.mem_sdiff.mpr
    ⟨getNeighbors_mem_allCells (hmem a ha).2.1, (hmem a ha).1⟩

structure GroupResult where
  liberties : Nat
  group : List Coordinate
deriving DecidableEq, Repr

/-- One step of the liberty rescan: add the neighbor to the set of unique
liberties when its cell is empty. -/
def libertyInsert (board : Board) (s : Finset Coordinate) (n : Coordinate) :
    Finset Coordinate :=
  if getCell board n = some PlayerColor.Empty then insert n s else s

/-- `getGroupLiberties` from the source: BFS collecting the connected group,
then a rescan of every group member's neighbors collecting the distinct empty
cells; the liberty count is the size of that set. -/
def getGroupLiberties (board : Board) (start : Coordinate)
    (color : PlayerColor) : GroupResult :=
  let group := bfsLoop board color [start] {start} []
  let uniqueLiberties := group.foldl
    (fun s stone => (getNeighbors stone board.length).foldl
      (libertyInsert board) s) ∅
  { liberties := uniqueLiberties.card, group := group }

/-- The `group.forEach` removal in `playMove`: set every stone of the captured
group to empty. -/
def removeGroup (b : Board) (group : List Coordinate) : Board :=
  group.foldl (fun bb stone => setCell bb stone.y stone.x PlayerColor.Empty) b

/-- The body of the `neighbors.forEach` capture scan in `playMove`: if the
neighbor currently holds an opponent stone, analyze its group and remove it
when it has zero liberties, adding the removed stones to the tally. -/
def captureStep (opp : PlayerColor) (st : Board × Nat) (n : Coordinate) :
    Board × Nat :=
  if getCell st.1 n = some opp then
    if (getGroupLiberties st.1 n opp).liberties = 0 then
      (removeGroup st.1 (getGroupLiberties st.1 n opp).group,
       st.2 + (getGroupLiberties st.1 n opp).group.length)
    else st
  else st

/-- The `neighbors.forEach` capture scan in `playMove`. -/
def resolveCaptures (b : Board) (nbrs : List Coordinate)
    (opp : PlayerColor) : Board × Nat :=
  nbrs.foldl (captureStep opp) (b, 0)

inductive PlayOutcome where
  | thrown
  | rejected (error : String)
  | accepted (newState : GameState)
deriving DecidableEq, Repr

/-- The `opponent` computation in `playMove`. -/
def oppOf (c : PlayerColor) : PlayerColor :=
  if c = PlayerColor.Black then PlayerColor.White else PlayerColor.Black

/-- The `newBoard` of `playMove` after the stone is placed.  The source first
clones the grid (`state.board.map(row => [...row])`); on values the clone is
the identity, so placing on the clone is `setCell` on the input board (the
aliasing discipline of the clone is modelled separately by `Heap` below). -/
def placedBoard (s : GameState) (x y : Nat) : Board :=
  setCell s.board y x s.currentPlayer

/-- The `neighbors` of the played coordinate in `playMove`. -/
def moveNeighbors (s : GameState) (x y : Nat) : List Coordinate :=
  getNeighbors ⟨x, y⟩ s.boardSize

/-- The board and capture tally after the capture scan of `playMove`. -/
def captureResult (s : GameState) (x y : Nat) : Board × Nat :=
  resolveCaptures (placedBoard s x y) (moveNeighbors s x y) (oppOf s.currentPlayer)

/-- The committed successor state built at the end of `playMove`. -/
def successorState (s : GameState) (x y : Nat) : GameState :=
  { s with
    board := (captureResult s x y).1
    currentPlayer := oppOf s.currentPlayer
    moveHistory := s.moveHistory ++ [⟨x, y⟩]
    lastMove := some ⟨x, y⟩
    capturedBlack :=
      if s.currentPlayer = PlayerColor.White
      then s.capturedBlack + (captureResult s x y).2 else s.capturedBlack
    capturedWhite :=
      if s.currentPlayer = PlayerColor.Black
      then s.capturedWhite + (captureResult s x y).2 else s.capturedWhite }

/-- `playMove` from the source.  `state.board[y][x]` with `y` out of range
throws a `TypeError` in JavaScript (indexing into `undefined`), modelled by
`PlayOutcome.thrown`; with `y` in range and `x` out of range it yields
`undefined`, which is `!== Empty` and therefore hits the occupied branch. -/
def playMove (state : GameState) (x y : Nat) : PlayOutcome :=
  if state.isGameOver then .rejected "Game Over"
  else
    match state.board.get? y with
    | none => .thrown
    | some row =>
      if row.get? x = some PlayerColor.Empty then
        if (getGroupLiberties (captureResult state x y).1 ⟨x, y⟩
              state.currentPlayer).liberties = 0 ∧
            (captureResult state x y).2 = 0 then
          .rejected "Suicide move not allowed"
        else
          .accepted (successorState state x y)
      else .rejected "Spot occupied"

/-- Playing a list of moves in order; `none` as soon as one is not accepted. -/
def playSeq : GameState → List Coordinate → Option GameState
  | s, [] => some s
  | s, c :: rest =>
    match playMove s c.x c.y with
    | .accepted s2 => playSeq s2 rest
    | _ => none

/-- The board really is a `boardSize` × `boardSize` grid. -/
def WellFormed (s : GameState) : Prop :=
  s.board.length = s.boardSize ∧ ∀ row ∈ s.board, row.length = s.boardSize

instance (s : GameState) : Decidable (WellFormed s) := by
  unfold WellFormed
  exact instDecidableAnd

lemma getCell_eq_some_iff {b : Board} {c : Coordinate} {v : PlayerColor} :
    getCell b c = some v ↔ ∃ row, b.get? c.y = some row ∧ row.get? c.x = some v := by
  unfold getCell
  cases h : b.get? c.y with
  | none => simp
  | some row => simp

lemma playMove_eq_gameOver_iff {s : GameState} {x y : Nat} :
    playMove s x y = PlayOutcome.rejected "Game Over" ↔ s.isGameOver = true := by
  unfold playMove
  constructor
  · intro h
    by_contra hgo
    rw [if_neg (by simpa using hgo)] at h
    split at h
    · cases h
    · split at h
      · split at h
        · simp at h
        · cases h
      · simp at h
  · intro h
    rw [if_pos (by simp [h])]

lemma playMove_eq_thrown_iff {s : GameState} {x y : Nat} :
    playMove s x y = PlayOutcome.thrown ↔
      s.isGameOver = false ∧ s.board.get? y = none := by
  unfold playMove
  constructor
  · intro h
    split at h
    · cases h
    · refine ⟨by simpa using ‹¬s.isGameOver = true›, ?_⟩
      split at h
      · assumption
      · split at h
        · split at h <;> cases h
        · cases h
  · intro ⟨h1, h2⟩
    rw [if_neg (by simp [h1]), h2]

lemma playMove_eq_occupied_iff {s : GameState} {x y : Nat} :
    playMove s x y = PlayOutcome.rejected "Spot occupied" ↔
      s.isGameOver = false ∧
        ∃ row, s.board.get? y = some row ∧ row.get? x ≠ some PlayerColor.Empty := by
  unfold playMove
  constructor
  · intro h
    split at h
    · simp at h
    · refine ⟨by simpa using ‹¬s.isGameOver = true›, ?_⟩
      split at h
      · cases h
      · split at h
        · split at h
          · simp at h
          · cases h
        · exact ⟨_, by assumption, by assumption⟩
  · intro ⟨h1, row, h2, h3⟩
    rw [if_neg (by simp [h1]), h2]
    simp only [if_neg h3]

lemma playMove_eq_suicide_iff {s : GameState} {x y : Nat} :
    playMove s x y = PlayOutcome.rejected "Suicide move not allowed" ↔
      s.isGameOver = false ∧ getCell s.board ⟨x, y⟩ = some PlayerColor.Empty ∧
        (getGroupLiberties (captureResult s x y).1 ⟨x, y⟩ s.currentPlayer).liberties = 0 ∧
        (captureResult s x y).2 = 0 := by
  rw [getCell_eq_some_iff]
  unfold playMove
  constructor
  · intro h
    split at h
    · simp at h
    · refine ⟨by simpa using ‹¬s.isGameOver = true›, ?_⟩
      split at h
      · cases h
      · split at h
        · split at h
          · exact ⟨⟨_, by assumption, by assumption⟩, by
              rename_i hcond
              exact hcond.1, by
              rename_i hcond
              exact hcond.2⟩
          · cases h
        · simp at h
  · intro ⟨h1, ⟨row, h2, h3⟩, h4, h5⟩
    rw [if_neg (by simp [h1]), h2]
    simp only [if_pos h3, if_pos (And.intro h4 h5)]

lemma playMove_eq_accepted_iff {s : GameState} {x y : Nat} {s2 : GameState} :
    playMove s x y = PlayOutcome.accepted s2 ↔
      s.isGameOver = false ∧ getCell s.board ⟨x, y⟩ = some PlayerColor.Empty ∧
        ¬((getGroupLiberties (captureResult s x y).1 ⟨x, y⟩ s.currentPlayer).liberties = 0 ∧
          (captureResult s x y).2 = 0) ∧
        s2 = successorState s x y := by
  rw [getCell_eq_some_iff]
  unfold playMove
  constructor
  · intro h
    split at h
    · cases h
    · refine ⟨by simpa using ‹¬s.isGameOver = true›, ?_⟩
      split at h
      · cases h
      · split at h
        · split at h
          · cases h
          · refine ⟨⟨_, by assumption, by assumption⟩, by assumption, ?_⟩
            injection h with h
            exact h.symm
        · cases h
  · intro ⟨h1, ⟨row, h2, h3⟩, h4, h5⟩
    rw [if_neg (by simp [h1]), h2]
    simp only [if_pos h3, if_neg h4, h5]

lemma successorState_moveHistory (s : GameState) (x y : Nat) :
    (successorState s x y).moveHistory = s.moveHistory ++ [⟨x, y⟩] := rfl

lemma successorState_isGameOver (s : GameState) (x y : Nat) :
    (successorState s x y).isGameOver = s.isGameOver := rfl

lemma playSeq_fields : ∀ (ms : List Coordinate) (s s2 : GameState),
    playSeq s ms = some s2 →
    s2.moveHistory = s.moveHistory ++ ms ∧ s2.isGameOver = s.isGameOver := by
  intro ms
  induction ms with
  | nil =>
    intro s s2 h
    injection h with h
    simp [h.symm]
  | cons c rest ih =>
    intro s s2 h
    unfold playSeq at h
    split at h
    · rename_i s3 hs3
      rcases ih s3 s2 h with ⟨h1, h2⟩
      rcases playMove_eq_accepted_iff.mp hs3 with ⟨-, -, -, rfl⟩
      refine ⟨?_, ?_⟩
      · rw [h1, successorState_moveHistory]
        simp
      · rw [h2, successorState_isGameOver]
    · cases h

/-- C10: the engine never sets the game-over flag: the initial state has
`isGameOver = false`, every accepted move copies the flag unchanged, so on
every state reachable from the initial state by accepted moves the flag is
`false` and the "Game Over" rejection branch of `playMove` is unreachable. -/
theorem engine_never_sets_gameOver :
    (∀ size : Nat, (createInitialState size).isGameOver = false) ∧
    (∀ (s : GameState) (x y : Nat) (s2 : GameState),
      playMove s x y = PlayOutcome.accepted s2 → s2.isGameOver = s.isGameOver) ∧
    (∀ (size : Nat) (ms : List Coordinate) (s2 : GameState),
      playSeq (createInitialState size) ms = some s2 →
      s2.isGameOver = false ∧
        ∀ x y : Nat, playMove s2 x y ≠ PlayOutcome.rejected "Game Over") := by
  refine ⟨fun _ => rfl, ?_, ?_⟩
  · intro s x y s2 h
    rcases playMove_eq_accepted_iff.mp h with ⟨-, -, -, rfl⟩
    exact successorState_isGameOver s x y
  · intro size ms s2 h
    have h2 := (playSeq_fields ms _ s2 h).2
    have hfalse : s2.isGameOver = false := h2
    refine ⟨hfalse, fun x y hcon => ?_⟩
    have := playMove_eq_gameOver_iff.mp hcon
    rw [hfalse] at this
    cases this

theorem engine_never_sets_gameOver_witness :
    (createInitialState 1).isGameOver = false ∧
    playMove (createInitialState 1) 5 7 ≠ PlayOutcome.rejected "Game Over" :=
  ⟨(engine_never_sets_gameOver.2.2 1 [] (createInitialState 1) rfl).1,
   (engine_never_sets_gameOver.2.2 1 [] (createInitialState 1) rfl).2 5 7⟩

/-- C9 (the claim fails on the code): `playMove` performs no bounds check.
With `y` in range and `x = 19` out of range on a fresh 19×19 board,
`state.board[y][x]` is `undefined`, which is `!== Empty`, so the move is
answered with the ordinary rule-violation result "Spot occupied" instead of
failing loudly; only an out-of-range `y` actually throws. -/
theorem playMove_out_of_range_not_loud :
    playMove (createInitialState 19) 19 0 = PlayOutcome.rejected "Spot occupied" ∧
    playMove (createInitialState 19) 0 19 = PlayOutcome.thrown := by
  constructor
  · rfl
  · rfl

/-- C5: every accepted move commits the updated grid, hands the turn to the
opponent, appends the move to the history, sets the last-move pointer, and
increases exactly the mover's capture counter by the capture tally; hence
after N accepted moves from the initial state the history is exactly the
list of played coordinates. -/
theorem playMove_commit_and_history :
    (∀ (s : GameState) (x y : Nat) (s2 : GameState),
      playMove s x y = PlayOutcome.accepted s2 →
      s2.board = (captureResult s x y).1 ∧
      s2.currentPlayer = oppOf s.currentPlayer ∧
      s2.moveHistory = s.moveHistory ++ [⟨x, y⟩] ∧
      s2.lastMove = some ⟨x, y⟩ ∧
      (s.currentPlayer = PlayerColor.Black →
        s2.capturedWhite = s.capturedWhite + (captureResult s x y).2 ∧
        s2.capturedBlack = s.capturedBlack) ∧
      (s.currentPlayer = PlayerColor.White →
        s2.capturedBlack = s.capturedBlack + (captureResult s x y).2 ∧
        s2.capturedWhite = s.capturedWhite)) ∧
    (∀ (size : Nat) (ms : List Coordinate) (s2 : GameState),
      playSeq (createInitialState size) ms = some s2 → s2.moveHistory = ms) := by
  constructor
  · intro s x y s2 h
    rcases playMove_eq_accepted_iff.mp h with ⟨-, -, -, rfl⟩
    refine ⟨rfl, rfl, rfl, rfl, ?_, ?_⟩
    · intro hb
      constructor
      · show (if s.currentPlayer = PlayerColor.Black
          then s.capturedWhite + (captureResult s x y).2 else s.capturedWhite) = _
        rw [if_pos hb]
      · show (if s.currentPlayer = PlayerColor.White
          then s.capturedBlack + (captureResult s x y).2 else s.capturedBlack) = _
        rw [if_neg (by rw [hb]; decide)]
    · intro hw
      constructor
      · show (if s.currentPlayer = PlayerColor.White
          then s.capturedBlack + (captureResult s x y).2 else s.capturedBlack) = _
        rw [if_pos hw]
      · show (if s.currentPlayer = PlayerColor.Black
          then s.capturedWhite + (captureResult s x y).2 else s.capturedWhite) = _
        rw [if_neg (by rw [hw]; decide)]
  · intro size ms s2 h
    have := (playSeq_fields ms _ s2 h).1
    simpa [createInitialState] using this

theorem playMove_commit_and_history_witness :
    (createInitialState 3).moveHistory = ([] : List Coordinate) :=
  playMove_commit_and_history.2 3 [] (createInitialState 3) rfl

/-- One step of group connectivity, exactly as the BFS neighbor scan admits
it: an in-bounds orthogonal neighbor whose cell is not empty and holds the
group's color. -/
def stepRel (board : Board) (color : PlayerColor) (a b : Coordinate) : Prop :=
  b ∈ getNeighbors a board.length ∧ getCell board b ≠ some PlayerColor.Empty ∧
    getCell board b = some color

/-- `reaches board color a b`: `b` is connected to `a` through 4-adjacent
cells of the given color (without crossing empty or other-colored cells). -/
def reaches (board : Board) (color : PlayerColor) : Coordinate → Coordinate → Prop :=
  Relation.ReflTransGen (stepRel board color)

lemma bfsLoop_invariant (board : Board) (color : PlayerColor) (start : Coordinate) :
    ∀ (n : Nat) (queue group : List Coordinate) (visited : Finset Coordinate),
      2 * ((allCells board.length) \ visited).card + queue.length ≤ n →
      visited = (group ++ queue).toFinset →
      (group ++ queue).Nodup →
      (∀ c ∈ visited, reaches board color start c) →
      (∀ c ∈ group, ∀ d, stepRel board color c d → d ∈ visited) →
      (bfsLoop board color queue visited group).Nodup ∧
      (∀ c ∈ visited, c ∈ bfsLoop board color queue visited group) ∧
      (∀ c ∈ bfsLoop board color queue visited group, reaches board color start c) ∧
      (∀ c ∈ bfsLoop board color queue visited group, ∀ d, stepRel board color c d →
        d ∈ bfsLoop board color queue visited group) := by
  intro n
  induction n with
  | zero =>
    intro queue group visited hm h1 h2 h3 h4
    cases queue with
    | nil =>
      have hg : bfsLoop board color [] visited group = group := by
        simp [bfsLoop]
      rw [hg]
      refine ⟨by simpa using h2, ?_, ?_, ?_⟩
      · intro c hc
        rw [h1] at hc
        simpa using hc
      · intro c hc
        exact h3 c (by rw [h1]; simpa using hc)
      · intro c hc d hd
        have := h4 c hc d hd
        rw [h1] at this
        simpa using this
    | cons cur rest =>
      exfalso
      simp only [List.length_cons] at hm
      omega
  | succ n ih =>
    intro queue group visited hm h1 h2 h3 h4
    cases queue with
    | nil =>
      have hg : bfsLoop board color [] visited group = group := by
        simp [bfsLoop]
      rw [hg]
      refine ⟨by simpa using h2, ?_, ?_, ?_⟩
      · intro c hc
        rw [h1] at hc
        simpa using hc
      · intro c hc
        exact h3 c (by rw [h1]; simpa using hc)
      · intro c hc d hd
        have := h4 c hc d hd
        rw [h1] at this
        simpa using this
    | cons cur rest =>
      rcases bfsStep_foldl_spec board color (getNeighbors cur board.length)
        rest visited with ⟨e, heq, hnde, hmem, hall⟩
      have hg : bfsLoop board color (cur :: rest) visited group =
          bfsLoop board color (rest ++ e) (visited ∪ e.toFinset) (group ++ [cur]) := by
        rw [bfsLoop]
        rw [heq]
      have hsub : e.toFinset ⊆ allCells board.length \ visited := by
        intro a ha
        rw [List.mem_toFinset] at ha
        exact Finset.mem_sdiff.mpr
          ⟨getNeighbors_mem_allCells (hmem a ha).2.1, (hmem a ha).1⟩
      have hcurv : cur ∈ visited := by
        rw [h1]
        simp
      have hv' : visited ∪ e.toFinset = ((group ++ [cur]) ++ (rest ++ e)).toFinset := by
        rw [h1]
        ext a
        simp only [Finset.mem_union, List.mem_toFinset, List.mem_append,
          List.mem_cons, List.mem_singleton]
        tauto
      have hnd' : ((group ++ [cur]) ++ (rest ++ e)).Nodup := by
        have hl : (group ++ [cur]) ++ (rest ++ e) = (group ++ cur :: rest) ++ e := by
          simp
        rw [hl, List.nodup_append]
        refine ⟨h2, hnde, ?_⟩
        intro a ha hae
        exact (hmem a hae).1 (by rw [h1]; exact List.mem_toFinset.mpr ha)
      have h3' : ∀ c ∈ visited ∪ e.toFinset, reaches board color start c := by
        intro c hc
        rcases Finset.mem_union.mp hc with hc | hc
        · exact h3 c hc
        · rw [List.mem_toFinset] at hc
          exact Relation.ReflTransGen.tail (h3 cur hcurv)
            ⟨(hmem c hc).2.1, (hmem c hc).2.2.2, (hmem c hc).2.2.1⟩
      have h4' : ∀ c ∈ group ++ [cur], ∀ d, stepRel board color c d →
          d ∈ visited ∪ e.toFinset := by
        intro c hc d hd
        rcases List.mem_append.mp hc with hc | hc
        · exact Finset.mem_union_left _ (h4 c hc d hd)
        · rw [List.mem_singleton] at hc
          subst hc
          rcases hall d hd.1 hd.2.2 hd.2.1 with h | h
          · exact Finset.mem_union_left _ h
          · exact Finset.mem_union_right _ (List.mem_toFinset.mpr h)
      have hmle : 2 * ((allCells board.length) \ (visited ∪ e.toFinset)).card +
          (rest ++ e).length ≤ n := by
        have := bfs_measure_lt board.length visited rest e cur hnde hsub
        omega
      rcases ih (rest ++ e) (group ++ [cur]) (visited ∪ e.toFinset)
        hmle hv' hnd' h3' h4' with ⟨gnd, gcont, gsound, gclosed⟩
      rw [hg]
      exact ⟨gnd, fun c hc => gcont c (Finset.mem_union_left _ hc), gsound, gclosed⟩

/-- The group list computed by `getGroupLiberties` is duplicate-free and its
members are exactly the cells connected to the start coordinate. -/
lemma getGroupLiberties_group_iff (board : Board) (start : Coordinate)
    (color : PlayerColor) :
    (getGroupLiberties board start color).group.Nodup ∧
    ∀ c, c ∈ (getGroupLiberties board start color).group ↔
      reaches board color start c := by
  have hinit := bfsLoop_invariant board color start
    (2 * ((allCells board.length) \ ({start} : Finset Coordinate)).card + 1)
    [start] [] {start} (by simp) (by simp) (by simp)
    (by
      intro c hc
      rw [Finset.mem_singleton] at hc
      subst hc
      exact Relation.ReflTransGen.refl)
    (by simp)
  rcases hinit with ⟨hnd, hcont, hsound, hclosed⟩
  have hgrp : (getGroupLiberties board start color).group =
      bfsLoop board color [start] {start} [] := rfl
  rw [hgrp]
  refine ⟨hnd, fun c => ⟨hsound c, ?_⟩⟩
  intro hreach
  induction hreach with
  | refl => exact hcont start (Finset.mem_singleton_self start)
  | tail hab hbc ihab => exact hclosed _ ihab _ hbc

lemma libertyInsert_foldl_mem (board : Board) :
    ∀ (ns : List Coordinate) (s : Finset Coordinate) (n : Coordinate),
      n ∈ ns.foldl (libertyInsert board) s ↔
        n ∈ s ∨ (n ∈ ns ∧ getCell board n = some PlayerColor.Empty) := by
  intro ns
  induction ns with
  | nil => simp
  | cons m ns ih =>
    intro s n
    rw [List.foldl_cons]
    by_cases hm : getCell board m = some PlayerColor.Empty
    · rw [show libertyInsert board s m = insert m s from by simp [libertyInsert, hm]]
      rw [ih]
      simp only [Finset.mem_insert, List.mem_cons]
      constructor
      · rintro ((rfl | h) | ⟨h1, h2⟩)
        · exact Or.inr ⟨Or.inl rfl, hm⟩
        · exact Or.inl h
        · exact Or.inr ⟨Or.inr h1, h2⟩
      · rintro (h | ⟨(rfl | h1), h2⟩)
        · exact Or.inl (Or.inr h)
        · exact Or.inl (Or.inl rfl)
        · exact Or.inr ⟨h1, h2⟩
    · rw [show libertyInsert board s m = s from by simp [libertyInsert, hm]]
      rw [ih]
      simp only [List.mem_cons]
      constructor
      · rintro (h | ⟨h1, h2⟩)
        · exact Or.inl h
        · exact Or.inr ⟨Or.inr h1, h2⟩
      · rintro (h | ⟨(rfl | h1), h2⟩)
        · exact Or.inl h
        · exact absurd h2 hm
        · exact Or.inr ⟨h1, h2⟩

lemma libertyScan_foldl_mem (board : Board) :
    ∀ (g : List Coordinate) (s : Finset Coordinate) (n : Coordinate),
      n ∈ g.foldl (fun s stone => (getNeighbors stone board.length).foldl
          (libertyInsert board) s) s ↔
        n ∈ s ∨ ∃ st ∈ g, n ∈ getNeighbors st board.length ∧
          getCell board n = some PlayerColor.Empty := by
  intro g
  induction g with
  | nil => simp
  | cons st g ih =>
    intro s n
    rw [List.foldl_cons, ih, libertyInsert_foldl_mem]
    constructor
    · rintro ((h | ⟨h1, h2⟩) | ⟨m, hm, h1, h2⟩)
      · exact Or.inl h
      · exact Or.inr ⟨st, List.mem_cons_self _ _, h1, h2⟩
      · exact Or.inr ⟨m, List.mem_cons_of_mem _ hm, h1, h2⟩
    · rintro (h | ⟨m, hm, h1, h2⟩)
      · exact Or.inl (Or.inl h)
      · rcases List.mem_cons.mp hm with rfl | hm'
        · exact Or.inl (Or.inr ⟨h1, h2⟩)
        · exact Or.inr ⟨m, hm', h1, h2⟩

/-- The distinct empty cells adjacent to at least one member of the group
list `g` on `board`. -/
def libertySetOf (board : Board) (g : List Coordinate) : Finset Coordinate :=
  (allCells board.length).filter fun n =>
    getCell board n = some PlayerColor.Empty ∧ ∃ st ∈ g, n ∈ getNeighbors st board.length

lemma getGroupLiberties_liberties_eq (board : Board) (start : Coordinate)
    (color : PlayerColor) :
    (getGroupLiberties board start color).liberties =
      (libertySetOf board (getGroupLiberties board start color).group).card := by
  have hset : ((getGroupLiberties board start color).group.foldl
      (fun s stone => (getNeighbors stone board.length).foldl
        (libertyInsert board) s) ∅) =
      libertySetOf board (getGroupLiberties board start color).group := by
    ext n
    rw [libertyScan_foldl_mem]
    unfold libertySetOf
    rw [Finset.mem_filter]
    constructor
    · rintro (h | ⟨st, hst, h1, h2⟩)
      · cases h
      · exact ⟨getNeighbors_mem_allCells h1, h2, st, hst, h1⟩
    · rintro ⟨-, h2, st, hst, h1⟩
      exact Or.inr ⟨st, hst, h1, h2⟩
  have : (getGroupLiberties board start color).liberties =
      ((getGroupLiberties board start color).group.foldl
        (fun s stone => (getNeighbors stone board.length).foldl
          (libertyInsert board) s) ∅).card := rfl
  rw [this, hset]

/-- C4: on any board, started from a coordinate holding a stone of the given
color, `getGroupLiberties` returns exactly the maximal 4-connected
same-colored group through that coordinate (each member listed once, every
member of the group's color), and a liberty count equal to the number of
distinct empty cells adjacent to at least one group member. -/
theorem getGroupLiberties_spec (board : Board) (start : Coordinate)
    (color : PlayerColor) (hstart : getCell board start = some color)
    (hcol : color ≠ PlayerColor.Empty) :
    (∀ c, c ∈ (getGroupLiberties board start color).group ↔
      reaches board color start c) ∧
    (∀ c ∈ (getGroupLiberties board start color).group,
      getCell board c = some color) ∧
    (getGroupLiberties board start color).group.Nodup ∧
    (getGroupLiberties board start color).liberties =
      (libertySetOf board (getGroupLiberties board start color).group).card := by
  rcases getGroupLiberties_group_iff board start color with ⟨hnd, hiff⟩
  refine ⟨hiff, ?_, hnd, getGroupLiberties_liberties_eq board start color⟩
  intro c hc
  have hr := (hiff c).mp hc
  induction hr with
  | refl => exact hstart
  | tail hab hbc ihab => exact hbc.2.2

theorem getGroupLiberties_spec_witness :
    getCell [[PlayerColor.Black]] ⟨0, 0⟩ = some PlayerColor.Black ∧
    ((⟨0, 0⟩ : Coordinate) ∈
        (getGroupLiberties [[PlayerColor.Black]] ⟨0, 0⟩ PlayerColor.Black).group ↔
      reaches [[PlayerColor.Black]] PlayerColor.Black ⟨0, 0⟩ ⟨0, 0⟩) :=
  ⟨rfl, (getGroupLiberties_spec [[PlayerColor.Black]] ⟨0, 0⟩ PlayerColor.Black rfl
    (by decide)).1 ⟨0, 0⟩⟩

/-- Every row has the board's length (square board). -/
def Square (b : Board) : Prop := ∀ row ∈ b, row.length = b.length

instance (b : Board) : Decidable (Square b) := by
  unfold Square
  infer_instance

lemma getCell_setCell (b : Board) (yy xx : Nat) (v : PlayerColor) (c : Coordinate) :
    getCell (setCell b yy xx v) c =
      if c = ⟨xx, yy⟩ then (getCell b c).map (fun _ => v) else getCell b c := by
  cases hrow : b.get? yy with
  | none =>
    have hset : setCell b yy xx v = b := by
      unfold setCell
      rw [hrow]
    rw [hset]
    split
    · rename_i hc
      subst hc
      unfold getCell
      simp only
      rw [hrow]
      rfl
    · rfl
  | some row =>
    have hset : setCell b yy xx v = b.set yy (row.set xx v) := by
      unfold setCell
      rw [hrow]
    unfold getCell
    rw [hset]
    by_cases hy : c.y = yy
    · rw [hy, List.get?_set_eq, hrow]
      by_cases hx : c.x = xx
      · have hc : c = ⟨xx, yy⟩ := by
          cases c
          simp_all
        rw [if_pos hc, hx]
        simp only [Option.map_eq_map, Option.map_some, Option.some_bind]
        rw [List.get?_set_eq]
        simp
      · have hc : c ≠ ⟨xx, yy⟩ := by
          intro h
          rw [h] at hx
          exact hx rfl
        rw [if_neg hc]
        simp only [Option.map_eq_map, Option.map_some, Option.some_bind]
        rw [List.get?_set_ne _ _ (fun h => hx h.symm)]
    · have hc : c ≠ ⟨xx, yy⟩ := by
        intro h
        rw [h] at hy
        exact hy rfl
      rw [if_neg hc]
      rw [List.get?_set_ne _ _ (fun h => hy h.symm)]

lemma length_setCell (b : Board) (yy xx : Nat) (v : PlayerColor) :
    (setCell b yy xx v).length = b.length := by
  unfold setCell
  split
  · rw [List.length_set]
  · rfl

lemma square_setCell {b : Board} (hsq : Square b) (yy xx : Nat) (v : PlayerColor) :
    Square (setCell b yy xx v) := by
  intro row hrow
  rw [length_setCell]
  unfold setCell at hrow
  split at hrow
  · rename_i r hr
    rcases List.mem_or_eq_of_mem_set hrow with h | h
    · exact hsq row h
    · rw [h, List.length_set]
      exact hsq r (List.get?_mem hr)
  · exact hsq row hrow

lemma getCell_removeGroup (L : List Coordinate) :
    ∀ (b : Board) (c : Coordinate),
      getCell (removeGroup b L) c =
        if c ∈ L then (getCell b c).map (fun _ => PlayerColor.Empty)
        else getCell b c := by
  induction L with
  | nil =>
    intro b c
    simp [removeGroup]
  | cons st L ih =>
    intro b c
    have hstep : removeGroup b (st :: L) =
        removeGroup (setCell b st.y st.x PlayerColor.Empty) L := by
      unfold removeGroup
      rw [List.foldl_cons]
    rw [hstep, ih]
    have hst : (⟨st.x, st.y⟩ : Coordinate) = st := rfl
    by_cases hcL : c ∈ L
    · rw [if_pos hcL, if_pos (List.mem_cons_of_mem st hcL)]
      rw [getCell_setCell, hst]
      by_cases hcs : c = st
      · rw [if_pos hcs]
        cases getCell b c <;> rfl
      · rw [if_neg hcs]
    · rw [if_neg hcL]
      rw [getCell_setCell, hst]
      by_cases hcs : c = st
      · rw [if_pos hcs, if_pos (by rw [hcs]; exact List.mem_cons_self _ _)]
      · rw [if_neg hcs, if_neg (by
          intro h
          rcases List.mem_cons.mp h with h | h
          · exact hcs h
          · exact hcL h)]

lemma length_removeGroup (L : List Coordinate) :
    ∀ b : Board, (removeGroup b L).length = b.length := by
  induction L with
  | nil =>
    intro b
    rfl
  | cons st L ih =>
    intro b
    have hstep : removeGroup b (st :: L) =
        removeGroup (setCell b st.y st.x PlayerColor.Empty) L := by
      unfold removeGroup
      rw [List.foldl_cons]
    rw [hstep, ih, length_setCell]

lemma board_ext {b1 b2 : Board} (hlen : b1.length = b2.length)
    (hcell : ∀ c, getCell b1 c = getCell b2 c) : b1 = b2 := by
  apply List.ext_get?
  intro yy
  cases h1 : b1.get? yy with
  | none =>
    have hy : b1.length ≤ yy := List.get?_eq_none.mp h1
    symm
    rw [List.get?_eq_none]
    omega
  | some row1 =>
    have hy1 : yy < b1.length := by
      by_contra hc
      rw [List.get?_eq_none.mpr (by omega)] at h1
      cases h1
    cases h2 : b2.get? yy with
    | none =>
      have := List.get?_eq_none.mp h2
      omega
    | some row2 =>
      congr 1
      apply List.ext_get?
      intro xx
      have := hcell ⟨xx, yy⟩
      unfold getCell at this
      simp only at this
      rw [h1, h2] at this
      simpa using this

/-- The board `b` with every cell of `S` cleared to empty (the order-free
description of what the capture scan removes). -/
def eraseCells (b : Board) (S : Finset Coordinate) : Board :=
  (List.range b.length).map fun yy =>
    (List.range ((b.get? yy).getD []).length).map fun xx =>
      if (⟨xx, yy⟩ : Coordinate) ∈ S then PlayerColor.Empty
      else ((b.get? yy).getD []).getD xx PlayerColor.Empty

lemma length_eraseCells (b : Board) (S : Finset Coordinate) :
    (eraseCells b S).length = b.length := by
  unfold eraseCells
  rw [List.length_map, List.length_range]

lemma getCell_eraseCells (b : Board) (S : Finset Coordinate) (c : Coordinate) :
    getCell (eraseCells b S) c =
      if c ∈ S then (getCell b c).map (fun _ => PlayerColor.Empty)
      else getCell b c := by
  unfold eraseCells getCell
  rw [List.get?_map]
  cases hy : b.get? c.y with
  | none =>
    have hylen : b.length ≤ c.y := List.get?_eq_none.mp hy
    rw [List.get?_eq_none.mpr (by rw [List.length_range]; exact hylen)]
    simp
  | some row =>
    have hylen : c.y < b.length := by
      by_contra hc
      rw [List.get?_eq_none.mpr (by omega)] at hy
      cases hy
    rw [List.get?_range hylen]
    simp only [Option.map_some', Option.some_bind, List.get?_map, hy, Option.getD_some]
    cases hx : row.get? c.x with
    | none =>
      have hxlen : row.length ≤ c.x := List.get?_eq_none.mp hx
      rw [List.get?_eq_none.mpr (by rw [List.length_range]; exact hxlen)]
      simp
    | some v =>
      have hxlen : c.x < row.length := by
        by_contra hc
        rw [List.get?_eq_none.mpr (by omega)] at hx
        cases hx
      rw [List.get?_range hxlen]
      have hv : row.getD c.x PlayerColor.Empty = v := by
        rw [List.getD_eq_getD_get?, hx]
        rfl
      have hc : (⟨c.x, c.y⟩ : Coordinate) = c := rfl
      simp only [Option.map_some', hc, hv]
      split
      · rfl
      · rfl

lemma getCell_some_bounds {b : Board} {c : Coordinate} {v : PlayerColor}
    (h : getCell b c = some v) :
    c.y < b.length ∧ ∃ row, b.get? c.y = some row ∧ c.x < row.length := by
  rcases getCell_eq_some_iff.mp h with ⟨row, h1, h2⟩
  have hy : c.y < b.length := by
    by_contra hc
    rw [List.get?_eq_none.mpr (by omega)] at h1
    cases h1
  have hx : c.x < row.length := by
    by_contra hc
    rw [List.get?_eq_none.mpr (by omega)] at h2
    cases h2
  exact ⟨hy, row, h1, hx⟩

lemma getCell_some_inbounds {b : Board} (hsq : Square b) {c : Coordinate}
    {v : PlayerColor} (h : getCell b c = some v) :
    c.x < b.length ∧ c.y < b.length := by
  rcases getCell_some_bounds h with ⟨hy, row, hrow, hx⟩
  have := hsq row (List.get?_mem hrow)
  omega

lemma getNeighbors_symm {a n : Coordinate} {size : Nat}
    (h : n ∈ getNeighbors a size) (hax : a.x < size) (hay : a.y < size) :
    a ∈ getNeighbors n size := by
  rw [mem_getNeighbors] at h ⊢
  obtain ⟨h1, h2, h3⟩ := h
  refine ⟨hax, hay, ?_⟩
  rcases h3 with ⟨hx, hy | hy⟩ | ⟨hy, hx | hx⟩
  · exact Or.inl ⟨hx.symm, Or.inr (by omega)⟩
  · exact Or.inl ⟨hx.symm, Or.inl (by omega)⟩
  · exact Or.inr ⟨hy.symm, Or.inr (by omega)⟩
  · exact Or.inr ⟨hy.symm, Or.inl (by omega)⟩

lemma reaches_cell {P : Board} {opp : PlayerColor} {m c : Coordinate}
    (hm : getCell P m = some opp) (h : reaches P opp m c) :
    getCell P c = some opp := by
  induction h with
  | refl => exact hm
  | tail hab hbc ih => exact hbc.2.2

lemma reaches_symm {P : Board} {opp : PlayerColor} (hsq : Square P)
    (hopp : opp ≠ PlayerColor.Empty) {m c : Coordinate}
    (hm : getCell P m = some opp) (h : reaches P opp m c) :
    reaches P opp c m := by
  induction h with
  | refl => exact Relation.ReflTransGen.refl
  | tail hab hbc ih =>
    rename_i b c2
    have hbcell : getCell P b = some opp := reaches_cell hm hab
    have hbin := getCell_some_inbounds hsq hbcell
    have hnb : b ∈ getNeighbors c2 P.length :=
      getNeighbors_symm hbc.1 hbin.1 hbin.2
    have hstep : stepRel P opp c2 b := by
      refine ⟨hnb, ?_, hbcell⟩
      rw [hbcell]
      intro hcon
      injection hcon with hcon
      exact hopp hcon
    exact Relation.ReflTransGen.head hstep ih

/-- Removing a union `S` of whole opponent groups does not disturb the group
analysis of any opponent stone outside `S`: reachability, group membership,
group size and liberty count all transfer between the original board `P` and
the erased board `B`. -/
lemma erased_transfer (P B : Board) (opp : PlayerColor)
    (hopp : opp ≠ PlayerColor.Empty) (hsq : Square P) (S : Finset Coordinate)
    (hlen : B.length = P.length)
    (hBS : ∀ c, getCell B c =
      if c ∈ S then (getCell P c).map (fun _ => PlayerColor.Empty)
      else getCell P c)
    (hSopp : ∀ c ∈ S, getCell P c = some opp)
    (hSclosed : ∀ c ∈ S, ∀ d, reaches P opp c d → d ∈ S)
    (m : Coordinate) (hm : getCell P m = some opp) (hmS : m ∉ S) :
    (∀ c, reaches P opp m c → c ∉ S) ∧
    (∀ c, c ∈ (getGroupLiberties B m opp).group ↔
      c ∈ (getGroupLiberties P m opp).group) ∧
    (getGroupLiberties B m opp).group.length =
      (getGroupLiberties P m opp).group.length ∧
    (getGroupLiberties B m opp).liberties =
      (getGroupLiberties P m opp).liberties := by
  have havoid : ∀ c, reaches P opp m c → c ∉ S := fun c hc hcS =>
    hmS (hSclosed c hcS m (reaches_symm hsq hopp hm hc))
  have hcellPB : ∀ c, c ∉ S → getCell B c = getCell P c := fun c h => by
    rw [hBS c, if_neg h]
  have hcellS : ∀ c ∈ S, getCell B c = some PlayerColor.Empty := fun c h => by
    rw [hBS c, if_pos h, hSopp c h]
    rfl
  have hfwd : ∀ c, reaches P opp m c → reaches B opp m c := by
    intro c h
    induction h with
    | refl => exact Relation.ReflTransGen.refl
    | tail hab hbc ih =>
      rename_i b c2
      have hc2S : c2 ∉ S := havoid _ (Relation.ReflTransGen.tail hab hbc)
      refine Relation.ReflTransGen.tail ih ⟨?_, ?_, ?_⟩
      · rw [hlen]
        exact hbc.1
      · rw [hcellPB c2 hc2S]
        exact hbc.2.1
      · rw [hcellPB c2 hc2S]
        exact hbc.2.2
  have hbwd : ∀ c, reaches B opp m c → reaches P opp m c := by
    intro c h
    induction h with
    | refl => exact Relation.ReflTransGen.refl
    | tail hab hbc ih =>
      rename_i b c2
      have hc2S : c2 ∉ S := by
        intro hc
        have hce := hcellS c2 hc
        have := hbc.2.2
        rw [hce] at this
        injection this with this
        exact hopp this.symm
      refine Relation.ReflTransGen.tail ih ⟨?_, ?_, ?_⟩
      · rw [← hlen]
        exact hbc.1
      · rw [← hcellPB c2 hc2S]
        exact hbc.2.1
      · rw [← hcellPB c2 hc2S]
        exact hbc.2.2
  have hgw : ∀ c, c ∈ (getGroupLiberties B m opp).group ↔
      c ∈ (getGroupLiberties P m opp).group := by
    intro c
    rw [(getGroupLiberties_group_iff B m opp).2,
      (getGroupLiberties_group_iff P m opp).2]
    exact ⟨hbwd c, hfwd c⟩
  have hlens : (getGroupLiberties B m opp).group.length =
      (getGroupLiberties P m opp).group.length := by
    rw [← List.toFinset_card_of_nodup (getGroupLiberties_group_iff B m opp).1,
      ← List.toFinset_card_of_nodup (getGroupLiberties_group_iff P m opp).1]
    congr 1
    ext a
    rw [List.mem_toFinset, List.mem_toFinset]
    exact hgw a
  refine ⟨havoid, hgw, hlens, ?_⟩
  rw [getGroupLiberties_liberties_eq B m opp, getGroupLiberties_liberties_eq P m opp]
  congr 1
  unfold libertySetOf
  rw [hlen]
  ext n
  rw [Finset.mem_filter, Finset.mem_filter]
  have hex : (∃ st ∈ (getGroupLiberties B m opp).group,
      n ∈ getNeighbors st P.length) ↔
      (∃ st ∈ (getGroupLiberties P m opp).group, n ∈ getNeighbors st P.length) := by
    constructor
    · rintro ⟨st, hst, hn⟩
      exact ⟨st, (hgw st).mp hst, hn⟩
    · rintro ⟨st, hst, hn⟩
      exact ⟨st, (hgw st).mpr hst, hn⟩
  by_cases hnS : n ∈ S
  · have hnoadj : ¬∃ st ∈ (getGroupLiberties P m opp).group,
        n ∈ getNeighbors st P.length := by
      rintro ⟨st, hst, hn⟩
      have hreach : reaches P opp m st :=
        ((getGroupLiberties_group_iff P m opp).2 st).mp hst
      have hstep : stepRel P opp st n := by
        refine ⟨hn, ?_, hSopp n hnS⟩
        rw [hSopp n hnS]
        intro hcon
        injection hcon with hcon
        exact hopp hcon
      exact havoid n (Relation.ReflTransGen.tail hreach hstep) hnS
    constructor
    · rintro ⟨-, -, hE⟩
      exact absurd (hex.mp hE) hnoadj
    · rintro ⟨-, -, hE⟩
      exact absurd hE hnoadj
  · rw [hcellPB n hnS]
    constructor
    · rintro ⟨h1, h2, h3⟩
      exact ⟨h1, h2, hex.mp h3⟩
    · rintro ⟨h1, h2, h3⟩
      exact ⟨h1, h2, hex.mpr h3⟩

/-- The cells captured by scanning the neighbor list `L` on board `P`: every
stone belonging to the group of some `L`-neighbor that holds an opponent
stone whose group has zero liberties.  This description does not depend on
the order of `L`. -/
def capOf (P : Board) (opp : PlayerColor) (L : List Coordinate) :
    Finset Coordinate :=
  (allCells P.length).filter fun c =>
    ∃ n ∈ L, getCell P n = some opp ∧
      (getGroupLiberties P n opp).liberties = 0 ∧
      c ∈ (getGroupLiberties P n opp).group

/-- Main capture-scan invariant: folding `captureStep` over a neighbor list,
starting from `P` with a union `S` of already-captured whole groups erased,
erases exactly `S ∪ capOf P opp L` and adds the number of newly removed
stones to the tally. -/
lemma captureStep_foldl (P : Board) (opp : PlayerColor)
    (hopp : opp ≠ PlayerColor.Empty) (hsq : Square P) :
    ∀ (L : List Coordinate) (B : Board) (acc : Nat) (S : Finset Coordinate),
      B.length = P.length →
      (∀ c, getCell B c =
        if c ∈ S then (getCell P c).map (fun _ => PlayerColor.Empty)
        else getCell P c) →
      (∀ c ∈ S, getCell P c = some opp) →
      (∀ c ∈ S, ∀ d, reaches P opp c d → d ∈ S) →
      (L.foldl (captureStep opp) (B, acc)).1.length = P.length ∧
      (∀ c, getCell (L.foldl (captureStep opp) (B, acc)).1 c =
        if c ∈ S ∪ capOf P opp L
        then (getCell P c).map (fun _ => PlayerColor.Empty)
        else getCell P c) ∧
      (L.foldl (captureStep opp) (B, acc)).2 =
        acc + ((S ∪ capOf P opp L).card - S.card) := by
  intro L
  induction L with
  | nil =>
    intro B acc S hBlen hBS hSopp hSclosed
    have hnil : capOf P opp [] = ∅ := by
      unfold capOf
      simp
    rw [List.foldl_nil, hnil]
    refine ⟨hBlen, ?_, ?_⟩
    · intro c
      rw [Finset.union_empty]
      exact hBS c
    · rw [Finset.union_empty]
      omega
  | cons n L ih =>
    intro B acc S hBlen hBS hSopp hSclosed
    rw [List.foldl_cons]
    by_cases hBn : getCell B n = some opp
    · have hnS : n ∉ S := by
        intro h
        rw [hBS n, if_pos h, hSopp n h] at hBn
        simp only [Option.map_some'] at hBn
        injection hBn with hBn
        exact hopp hBn.symm
      have hPn : getCell P n = some opp := by
        rw [hBS n, if_neg hnS] at hBn
        exact hBn
      obtain ⟨havoid, hgw, hglen, hlib⟩ :=
        erased_transfer P B opp hopp hsq S hBlen hBS hSopp hSclosed n hPn hnS
      by_cases hlib0 : (getGroupLiberties P n opp).liberties = 0
      · have hstep : captureStep opp (B, acc) n =
            (removeGroup B (getGroupLiberties B n opp).group,
             acc + (getGroupLiberties B n opp).group.length) := by
          unfold captureStep
          rw [if_pos hBn, if_pos (by rw [hlib]; exact hlib0)]
        have hGmem : ∀ c, c ∈ (getGroupLiberties P n opp).group.toFinset ↔
            reaches P opp n c := fun c => by
          rw [List.mem_toFinset]
          exact (getGroupLiberties_group_iff P n opp).2 c
        have hGopp : ∀ c ∈ (getGroupLiberties P n opp).group.toFinset,
            getCell P c = some opp := fun c hc =>
          reaches_cell hPn ((hGmem c).mp hc)
        have hGS : ∀ c ∈ (getGroupLiberties P n opp).group.toFinset, c ∉ S :=
          fun c hc => havoid c ((hGmem c).mp hc)
        have hGcard : (getGroupLiberties B n opp).group.length =
            (getGroupLiberties P n opp).group.toFinset.card := by
          rw [hglen,
            List.toFinset_card_of_nodup (getGroupLiberties_group_iff P n opp).1]
        have hBS' : ∀ c, getCell (removeGroup B (getGroupLiberties B n opp).group) c =
            if c ∈ S ∪ (getGroupLiberties P n opp).group.toFinset
            then (getCell P c).map (fun _ => PlayerColor.Empty)
            else getCell P c := by
          intro c
          rw [getCell_removeGroup]
          by_cases hcG : c ∈ (getGroupLiberties P n opp).group.toFinset
          · rw [if_pos ((hgw c).mpr (List.mem_toFinset.mp hcG))]
            rw [hBS c, if_neg (hGS c hcG), if_pos (Finset.mem_union_right _ hcG)]
          · rw [if_neg (fun hmem => hcG (List.mem_toFinset.mpr ((hgw c).mp hmem)))]
            rw [hBS c]
            by_cases hcS : c ∈ S
            · rw [if_pos hcS, if_pos (Finset.mem_union_left _ hcS)]
            · rw [if_neg hcS, if_neg (by
                intro hc
                rcases Finset.mem_union.mp hc with h | h
                · exact hcS h
                · exact hcG h)]
        have hlen' : (removeGroup B (getGroupLiberties B n opp).group).length =
            P.length := by
          rw [length_removeGroup]
          exact hBlen
        have hSopp' : ∀ c ∈ S ∪ (getGroupLiberties P n opp).group.toFinset,
            getCell P c = some opp := by
          intro c hc
          rcases Finset.mem_union.mp hc with h | h
          · exact hSopp c h
          · exact hGopp c h
        have hSclosed' : ∀ c ∈ S ∪ (getGroupLiberties P n opp).group.toFinset,
            ∀ d, reaches P opp c d →
              d ∈ S ∪ (getGroupLiberties P n opp).group.toFinset := by
          intro c hc d hd
          rcases Finset.mem_union.mp hc with h | h
          · exact Finset.mem_union_left _ (hSclosed c h d hd)
          · exact Finset.mem_union_right _
              ((hGmem d).mpr (Relation.ReflTransGen.trans ((hGmem c).mp h) hd))
        obtain ⟨ih1, ih2, ih3⟩ := ih
          (removeGroup B (getGroupLiberties B n opp).group)
          (acc + (getGroupLiberties B n opp).group.length)
          (S ∪ (getGroupLiberties P n opp).group.toFinset)
          hlen' hBS' hSopp' hSclosed'
        have hsets : (S ∪ (getGroupLiberties P n opp).group.toFinset) ∪
            capOf P opp L = S ∪ capOf P opp (n :: L) := by
          ext a
          simp only [Finset.mem_union, capOf, Finset.mem_filter, List.mem_cons]
          constructor
          · rintro ((h | h) | ⟨hac, m, hm, hrest⟩)
            · exact Or.inl h
            · refine Or.inr ⟨?_, n, Or.inl rfl, hPn, hlib0, List.mem_toFinset.mp h⟩
              exact mem_allCells.mpr (getCell_some_inbounds hsq (hGopp a h))
            · exact Or.inr ⟨hac, m, Or.inr hm, hrest⟩
          · rintro (h | ⟨hac, m, hm | hm, hrest⟩)
            · exact Or.inl (Or.inl h)
            · subst hm
              exact Or.inl (Or.inr (List.mem_toFinset.mpr hrest.2.2))
            · exact Or.inr ⟨hac, m, hm, hrest⟩
        rw [hstep]
        refine ⟨ih1, ?_, ?_⟩
        · intro c
          rw [ih2 c, hsets]
        · rw [ih3, hsets, hGcard]
          have hdis : Disjoint S (getGroupLiberties P n opp).group.toFinset :=
            Finset.disjoint_right.mpr hGS
          have hcardu := Finset.card_union_of_disjoint hdis
          have hsub : S ∪ (getGroupLiberties P n opp).group.toFinset ⊆
              S ∪ capOf P opp (n :: L) := by
            rw [← hsets]
            exact Finset.subset_union_left
          have hcle := Finset.card_le_card hsub
          omega
      · have hstep : captureStep opp (B, acc) n = (B, acc) := by
          unfold captureStep
          rw [if_pos hBn, if_neg (by rw [hlib]; exact hlib0)]
        obtain ⟨ih1, ih2, ih3⟩ := ih B acc S hBlen hBS hSopp hSclosed
        have hsets : S ∪ capOf P opp (n :: L) = S ∪ capOf P opp L := by
          ext a
          simp only [Finset.mem_union, capOf, Finset.mem_filter, List.mem_cons]
          constructor
          · rintro (h | ⟨hac, m, hm | hm, hrest⟩)
            · exact Or.inl h
            · subst hm
              exact absurd hrest.2.1 hlib0
            · exact Or.inr ⟨hac, m, hm, hrest⟩
          · rintro (h | ⟨hac, m, hm, hrest⟩)
            · exact Or.inl h
            · exact Or.inr ⟨hac, m, Or.inr hm, hrest⟩
        rw [hstep]
        refine ⟨ih1, ?_, ?_⟩
        · intro c
          rw [hsets]
          exact ih2 c
        · rw [hsets]
          exact ih3
    · have hstep : captureStep opp (B, acc) n = (B, acc) := by
        unfold captureStep
        rw [if_neg hBn]
      obtain ⟨ih1, ih2, ih3⟩ := ih B acc S hBlen hBS hSopp hSclosed
      have hsets : S ∪ capOf P opp (n :: L) = S ∪ capOf P opp L := by
        ext a
        simp only [Finset.mem_union, capOf, Finset.mem_filter, List.mem_cons]
        constructor
        · rintro (h | ⟨hac, m, hm | hm, hrest⟩)
          · exact Or.inl h
          · subst hm
            by_cases hnS : m ∈ S
            · exact Or.inl (hSclosed m hnS a
                (((getGroupLiberties_group_iff P m opp).2 a).mp hrest.2.2))
            · exact absurd (by rw [hBS m, if_neg hnS]; exact hrest.1) hBn
          · exact Or.inr ⟨hac, m, hm, hrest⟩
        · rintro (h | ⟨hac, m, hm, hrest⟩)
          · exact Or.inl h
          · exact Or.inr ⟨hac, m, Or.inr hm, hrest⟩
      rw [hstep]
      refine ⟨ih1, ?_, ?_⟩
      · intro c
        rw [hsets]
        exact ih2 c
      · rw [hsets]
        exact ih3

/-- The set of stones captured by the move `(x, y)`: all stones of zero-
liberty opponent groups adjacent to the played coordinate, described without
reference to the scan order. -/
def moveCaptures (s : GameState) (x y : Nat) : Finset Coordinate :=
  capOf (placedBoard s x y) (oppOf s.currentPlayer) (moveNeighbors s x y)

lemma oppOf_ne_empty (c : PlayerColor) : oppOf c ≠ PlayerColor.Empty := by
  unfold oppOf
  split
  · intro h
    cases h
  · intro h
    cases h

lemma square_of_wellFormed {s : GameState} (hWF : WellFormed s) :
    Square s.board := by
  intro row hrow
  rw [hWF.2 row hrow, hWF.1]

lemma square_placedBoard {s : GameState} (hWF : WellFormed s) (x y : Nat) :
    Square (placedBoard s x y) := by
  unfold placedBoard
  exact square_setCell (square_of_wellFormed hWF) y x s.currentPlayer

/-- What the capture scan of `playMove` computes: the board with exactly the
zero-liberty adjacent opponent groups erased, and their total stone count. -/
lemma captureResult_spec (s : GameState) (x y : Nat) (hWF : WellFormed s) :
    (captureResult s x y).1 =
      eraseCells (placedBoard s x y) (moveCaptures s x y) ∧
    (captureResult s x y).2 = (moveCaptures s x y).card := by
  have hopp := oppOf_ne_empty s.currentPlayer
  have hsq := square_placedBoard hWF x y
  have hfold := captureStep_foldl (placedBoard s x y) (oppOf s.currentPlayer)
    hopp hsq (moveNeighbors s x y) (placedBoard s x y) 0 ∅ rfl
    (by
      intro c
      rw [if_neg (Finset.not_mem_empty c)])
    (by
      intro c hc
      exact absurd hc (Finset.not_mem_empty c))
    (by
      intro c hc
      exact absurd hc (Finset.not_mem_empty c))
  obtain ⟨h1, h2, h3⟩ := hfold
  have hcr : captureResult s x y = (moveNeighbors s x y).foldl
      (captureStep (oppOf s.currentPlayer)) (placedBoard s x y, 0) := rfl
  constructor
  · rw [hcr]
    apply board_ext
    · rw [h1, length_eraseCells]
    · intro c
      rw [h2 c, getCell_eraseCells]
      rw [Finset.empty_union]
      rfl
  · rw [hcr, h3]
    unfold moveCaptures
    simp

/-- C1: for a non-finished game and an empty target cell, the capture phase
of `playMove` (run on the board with the mover's stone placed) removes
exactly the stones of every adjacent zero-liberty opponent group — all such
groups at once, disjoint groups included — and the tally is their combined
stone count; the resulting board is the order-free erasure
`eraseCells placed (moveCaptures s x y)`, so it does not depend on the order
in which the captured groups are resolved. -/
theorem playMove_capture_semantics (s : GameState) (x y : Nat)
    (hWF : WellFormed s) (hgo : s.isGameOver = false)
    (hempty : getCell s.board ⟨x, y⟩ = some PlayerColor.Empty)
    (hcp : s.currentPlayer ≠ PlayerColor.Empty) :
    (captureResult s x y).1 =
      eraseCells (placedBoard s x y) (moveCaptures s x y) ∧
    (captureResult s x y).2 = (moveCaptures s x y).card ∧
    (∀ s2, playMove s x y = PlayOutcome.accepted s2 →
      s2.board = eraseCells (placedBoard s x y) (moveCaptures s x y)) := by
  obtain ⟨h1, h2⟩ := captureResult_spec s x y hWF
  refine ⟨h1, h2, ?_⟩
  intro s2 hacc
  rcases playMove_eq_accepted_iff.mp hacc with ⟨-, -, -, rfl⟩
  exact h1

theorem playMove_capture_semantics_witness :
    WellFormed (createInitialState 2) ∧
    (captureResult (createInitialState 2) 0 0).1 =
      eraseCells (placedBoard (createInitialState 2) 0 0)
        (moveCaptures (createInitialState 2) 0 0) ∧
    (captureResult (createInitialState 2) 0 0).2 =
      (moveCaptures (createInitialState 2) 0 0).card :=
  ⟨by decide,
   (playMove_capture_semantics (createInitialState 2) 0 0 (by decide) rfl rfl
     (by decide)).1,
   (playMove_capture_semantics (createInitialState 2) 0 0 (by decide) rfl rfl
     (by decide)).2.1⟩

/-- C2: for a non-finished game and an empty target cell, `playMove` rejects
with the suicide error exactly when, on the board with the stone placed and
all adjacent zero-liberty opponent groups already removed, the mover's own
group has zero liberties and the set of captured opponent stones is empty —
i.e. the suicide test is applied after capture resolution. -/
theorem playMove_suicide_characterization (s : GameState) (x y : Nat)
    (hWF : WellFormed s) (hgo : s.isGameOver = false)
    (hempty : getCell s.board ⟨x, y⟩ = some PlayerColor.Empty) :
    playMove s x y = PlayOutcome.rejected "Suicide move not allowed" ↔
      ((getGroupLiberties
          (eraseCells (placedBoard s x y) (moveCaptures s x y))
          ⟨x, y⟩ s.currentPlayer).liberties = 0 ∧
        moveCaptures s x y = ∅) := by
  obtain ⟨h1, h2⟩ := captureResult_spec s x y hWF
  rw [playMove_eq_suicide_iff, h1, h2]
  constructor
  · rintro ⟨-, -, hl, hc⟩
    exact ⟨hl, Finset.card_eq_zero.mp hc⟩
  · rintro ⟨hl, hc⟩
    exact ⟨hgo, hempty, hl, by rw [hc]; rfl⟩

theorem playMove_suicide_characterization_witness :
    WellFormed (createInitialState 3) ∧
    (playMove (createInitialState 3) 1 1 =
        PlayOutcome.rejected "Suicide move not allowed" ↔
      ((getGroupLiberties
          (eraseCells (placedBoard (createInitialState 3) 1 1)
            (moveCaptures (createInitialState 3) 1 1))
          ⟨1, 1⟩ (createInitialState 3).currentPlayer).liberties = 0 ∧
        moveCaptures (createInitialState 3) 1 1 = ∅)) :=
  ⟨by decide,
   playMove_suicide_characterization (createInitialState 3) 1 1 (by decide) rfl rfl⟩

/-- Reading a cell of the influence grid. -/
def getVal (g : List (List Int)) (c : Coordinate) : Option Int :=
  (g.get? c.y).bind fun row => row.get? c.x

/-- `influence[ny][nx] += delta` (always called in-range in the source). -/
def addAt (g : List (List Int)) (yy xx : Nat) (delta : Int) : List (List Int) :=
  match g.get? yy with
  | some row => g.set yy (row.set xx ((row.get? xx).getD 0 + delta))
  | none => g

/-- The loop offsets `-3 ... 3` of the influence kernel. -/
def influenceOffsets : List Int := (List.range 7).map fun i => (i : Int) - 3

/-- The inner (`dx`) loop body of the `// Radiate` part of
`calculateInfluence`, for one stone of signed value `val` at `(x, y)` and a
fixed row offset `dy`. -/
def radiateStepX (size x y : Nat) (val : Int) (dy : Int)
    (g2 : List (List Int)) (dx : Int) : List (List Int) :=
  let nx := (x : Int) + dx
  let ny := (y : Int) + dy
  if 0 ≤ nx ∧ nx < (size : Int) ∧ 0 ≤ ny ∧ ny < (size : Int) then
    let dist := dx.natAbs + dy.natAbs
    let impact : Int :=
      if dist = 0 then 6
      else if dist = 1 then 4
      else if dist = 2 then 2
      else if dist = 3 then 1
      else 0
    addAt g2 ny.toNat nx.toNat (val * impact)
  else g2

/-- The outer (`dy`) loop body of the radiate loop. -/
def radiateRow (size x y : Nat) (val : Int) (g : List (List Int))
    (dy : Int) : List (List Int) :=
  influenceOffsets.foldl (radiateStepX size x y val dy) g

/-- The whole `// Radiate` double loop for one stone. -/
def radiate (size x y : Nat) (val : Int) (grid : List (List Int)) :
    List (List Int) :=
  influenceOffsets.foldl (radiateRow size x y val) grid

/-- The inner (`x`) loop body of `calculateInfluence`: radiate the stone at
`(xx, yy)` if that cell is not empty. -/
def influenceCellStep (board : Board) (size yy : Nat)
    (g2 : List (List Int)) (xx : Nat) : List (List Int) :=
  let stone := getCell board ⟨xx, yy⟩
  if stone ≠ some PlayerColor.Empty then
    let val : Int := if stone = some PlayerColor.Black then 1 else -1
    radiate size xx yy val g2
  else g2

/-- The outer (`y`) loop body of `calculateInfluence`. -/
def influenceRowStep (board : Board) (size : Nat)
    (grid : List (List Int)) (yy : Nat) : List (List Int) :=
  (List.range size).foldl (influenceCellStep board size yy) grid

/-- `calculateInfluence` from the source: start from an all-zero size×size
grid and radiate every stone's kernel into it. -/
def calculateInfluence (board : Board) : List (List Int) :=
  let size := board.length
  (List.range size).foldl (influenceRowStep board size)
    (List.replicate size (List.replicate size (0 : Int)))

/-- Manhattan distance between two coordinates. -/
def manhattan (a b : Coordinate) : Nat :=
  ((a.x : Int) - b.x).natAbs + ((a.y : Int) - b.y).natAbs

/-- The decay kernel: weight 6, 4, 2, 1 at Manhattan distance 0, 1, 2, 3 and
0 beyond. -/
def influenceWeight (d : Nat) : Int :=
  if d = 0 then 6 else if d = 1 then 4 else if d = 2 then 2
  else if d = 3 then 1 else 0

/-- The signed contribution of the stone (if any) at `src` to the influence
value of the cell `c`. -/
def influenceContribution (board : Board) (src c : Coordinate) : Int :=
  match getCell board src with
  | some PlayerColor.Black => influenceWeight (manhattan src c)
  | some PlayerColor.White => -influenceWeight (manhattan src c)
  | _ => 0

lemma mem_influenceOffsets {d : Int} :
    d ∈ influenceOffsets ↔ -3 ≤ d ∧ d ≤ 3 := by
  have hlist : influenceOffsets = [-3, -2, -1, 0, 1, 2, 3] := by decide
  rw [hlist]
  simp only [List.mem_cons, List.not_mem_nil, or_false, List.mem_singleton]
  omega

lemma nodup_influenceOffsets : influenceOffsets.Nodup := by decide

lemma getVal_addAt (g : List (List Int)) (yy xx : Nat) (delta : Int)
    (c : Coordinate) :
    getVal (addAt g yy xx delta) c =
      if c = ⟨xx, yy⟩ then (getVal g c).map (· + delta) else getVal g c := by
  cases hrow : g.get? yy with
  | none =>
    have ha : addAt g yy xx delta = g := by
      unfold addAt
      rw [hrow]
    rw [ha]
    split
    · rename_i hc
      subst hc
      unfold getVal
      simp only
      rw [hrow]
      rfl
    · rfl
  | some row =>
    have ha : addAt g yy xx delta =
        g.set yy (row.set xx ((row.get? xx).getD 0 + delta)) := by
      unfold addAt
      rw [hrow]
    rw [ha]
    unfold getVal
    by_cases hy : c.y = yy
    · rw [hy, List.get?_set_eq, hrow]
      by_cases hx : c.x = xx
      · have hc : c = ⟨xx, yy⟩ := by
          cases c
          simp_all
        rw [if_pos hc, hx]
        simp only [Option.map_eq_map, Option.map_some', Option.some_bind]
        rw [List.get?_set_eq]
        cases hcur : row.get? xx with
        | none => rfl
        | some cur =>
          simp only [Option.map_eq_map, Option.map_some', Option.getD_some]
      · have hc : c ≠ ⟨xx, yy⟩ := by
          intro h
          rw [h] at hx
          exact hx rfl
        rw [if_neg hc]
        simp only [Option.map_eq_map, Option.map_some', Option.some_bind]
        rw [List.get?_set_ne _ _ (fun h => hx h.symm)]
    · have hc : c ≠ ⟨xx, yy⟩ := by
        intro h
        rw [h] at hy
        exact hy rfl
      rw [if_neg hc]
      rw [List.get?_set_ne _ _ (fun h => hy h.symm)]

/-- Two integer grids with the same number of rows and the same row lengths. -/
def sameShape (g1 g2 : List (List Int)) : Prop :=
  ∀ i, (g1.get? i).map List.length = (g2.get? i).map List.length

lemma sameShape_refl (g : List (List Int)) : sameShape g g := fun _ => rfl

lemma sameShape_trans {g1 g2 g3 : List (List Int)}
    (h1 : sameShape g1 g2) (h2 : sameShape g2 g3) : sameShape g1 g3 :=
  fun i => (h1 i).trans (h2 i)

lemma sameShape_length {g1 g2 : List (List Int)} (h : sameShape g1 g2) :
    g1.length = g2.length := by
  by_contra hne
  rcases Nat.lt_or_ge g1.length g2.length with hlt | hge
  · have h1 : g1.get? g1.length = none := List.get?_eq_none.mpr (le_refl _)
    have h2 : g2.get? g1.length ≠ none := by
      intro hcon
      have := List.get?_eq_none.mp hcon
      omega
    have := h g1.length
    rw [h1] at this
    cases hcc : g2.get? g1.length with
    | none => exact h2 hcc
    | some r =>
      rw [hcc] at this
      cases this
  · have hlt : g2.length < g1.length := by omega
    have h1 : g2.get? g2.length = none := List.get?_eq_none.mpr (le_refl _)
    have h2 : g1.get? g2.length ≠ none := by
      intro hcon
      have := List.get?_eq_none.mp hcon
      omega
    have := h g2.length
    rw [h1] at this
    cases hcc : g1.get? g2.length with
    | none => exact h2 hcc
    | some r =>
      rw [hcc] at this
      cases this

lemma sameShape_addAt (g : List (List Int)) (yy xx : Nat) (delta : Int) :
    sameShape (addAt g yy xx delta) g := by
  intro i
  cases hrow : g.get? yy with
  | none =>
    have ha : addAt g yy xx delta = g := by
      unfold addAt
      rw [hrow]
    rw [ha]
  | some row =>
    have ha : addAt g yy xx delta =
        g.set yy (row.set xx ((row.get? xx).getD 0 + delta)) := by
      unfold addAt
      rw [hrow]
    rw [ha]
    by_cases hi : i = yy
    · subst hi
      rw [List.get?_set_eq, hrow]
      simp [List.length_set]
    · rw [List.get?_set_ne _ _ (fun h => hi h.symm)]

lemma influenceWeight_eq_zero {d : Nat} (h : 4 ≤ d) : influenceWeight d = 0 := by
  unfold influenceWeight
  rw [if_neg (by omega), if_neg (by omega), if_neg (by omega), if_neg (by omega)]

lemma option_map_add_zero (o : Option Int) : o.map (· + (0 : Int)) = o := by
  cases o
  · rfl
  · simp

lemma radiateStepX_eq (size x y : Nat) (val : Int) (dy : Int)
    (g : List (List Int)) (dx : Int) :
    radiateStepX size x y val dy g dx =
      if 0 ≤ (x : Int) + dx ∧ (x : Int) + dx < (size : Int) ∧
          0 ≤ (y : Int) + dy ∧ (y : Int) + dy < (size : Int) then
        addAt g ((y : Int) + dy).toNat ((x : Int) + dx).toNat
          (val * influenceWeight (dx.natAbs + dy.natAbs))
      else g := rfl

lemma foldl_radiateStepX (size x y : Nat) (val : Int) (dy : Int) :
    ∀ (dxs : List Int), dxs.Nodup →
    ∀ (g : List (List Int)) (c : Coordinate),
      getVal (dxs.foldl (radiateStepX size x y val dy) g) c =
      if ((c.x : Int) - (x : Int)) ∈ dxs ∧ (c.y : Int) = (y : Int) + dy ∧
          c.x < size ∧ c.y < size then
        (getVal g c).map
          (· + val * influenceWeight
            (((c.x : Int) - x).natAbs + dy.natAbs))
      else getVal g c := by
  intro dxs
  induction dxs with
  | nil =>
    intro _ g c
    rw [List.foldl_nil, if_neg]
    rintro ⟨h, -⟩
    cases h
  | cons dx dxs ih =>
    intro hnd g c
    have hnd' := List.nodup_cons.mp hnd
    rw [List.foldl_cons, radiateStepX_eq]
    by_cases hb : 0 ≤ (x : Int) + dx ∧ (x : Int) + dx < (size : Int) ∧
        0 ≤ (y : Int) + dy ∧ (y : Int) + dy < (size : Int)
    · rw [if_pos hb]
      rw [ih hnd'.2]
      by_cases hct : (c.x : Int) = (x : Int) + dx ∧ (c.y : Int) = (y : Int) + dy
      · have hdx : (c.x : Int) - (x : Int) = dx := by omega
        have hnotin : ((c.x : Int) - (x : Int)) ∉ dxs := by
          rw [hdx]
          exact hnd'.1
        rw [if_neg (fun hcon => hnotin hcon.1)]
        rw [getVal_addAt]
        have hc : c = ⟨((x : Int) + dx).toNat, ((y : Int) + dy).toNat⟩ := by
          cases c
          simp_all only [Coordinate.mk.injEq]
          omega
        rw [if_pos hc, if_pos ⟨by rw [hdx]; exact List.mem_cons_self _ _,
          hct.2, by omega, by omega⟩, hdx]
      · have hcc : c ≠ ⟨((x : Int) + dx).toNat, ((y : Int) + dy).toNat⟩ := by
          intro h
          apply hct
          rw [h]
          constructor
          · simp
            omega
          · simp
            omega
        rw [getVal_addAt, if_neg hcc]
        by_cases htail : ((c.x : Int) - (x : Int)) ∈ dxs ∧
            (c.y : Int) = (y : Int) + dy ∧ c.x < size ∧ c.y < size
        · rw [if_pos htail, if_pos ⟨List.mem_cons_of_mem dx htail.1,
            htail.2.1, htail.2.2⟩]
        · rw [if_neg htail, if_neg]
          rintro ⟨h1, h2, h3, h4⟩
          rcases List.mem_cons.mp h1 with h1 | h1
          · exact hct ⟨by omega, h2⟩
          · exact htail ⟨h1, h2, h3, h4⟩
    · rw [if_neg hb]
      rw [ih hnd'.2]
      by_cases htail : ((c.x : Int) - (x : Int)) ∈ dxs ∧
          (c.y : Int) = (y : Int) + dy ∧ c.x < size ∧ c.y < size
      · rw [if_pos htail, if_pos ⟨List.mem_cons_of_mem dx htail.1,
          htail.2.1, htail.2.2⟩]
      · rw [if_neg htail, if_neg]
        rintro ⟨h1, h2, h3, h4⟩
        rcases List.mem_cons.mp h1 with h1 | h1
        · exact hb ⟨by omega, by omega, by omega, by omega⟩
        · exact htail ⟨h1, h2, h3, h4⟩

lemma foldl_radiateRow (size x y : Nat) (val : Int) :
    ∀ (dys : List Int), dys.Nodup →
    ∀ (g : List (List Int)) (c : Coordinate),
      getVal (dys.foldl (radiateRow size x y val) g) c =
      if ((c.y : Int) - (y : Int)) ∈ dys ∧
          ((c.x : Int) - (x : Int)) ∈ influenceOffsets ∧
          c.x < size ∧ c.y < size then
        (getVal g c).map
          (· + val * influenceWeight
            (((c.x : Int) - x).natAbs + ((c.y : Int) - y).natAbs))
      else getVal g c := by
  intro dys
  induction dys with
  | nil =>
    intro _ g c
    rw [List.foldl_nil, if_neg]
    rintro ⟨h, -⟩
    cases h
  | cons dy dys ih =>
    intro hnd g c
    have hnd' := List.nodup_cons.mp hnd
    rw [List.foldl_cons]
    have hrow : radiateRow size x y val g dy =
        influenceOffsets.foldl (radiateStepX size x y val dy) g := rfl
    rw [hrow, ih hnd'.2,
      foldl_radiateStepX size x y val dy influenceOffsets nodup_influenceOffsets]
    by_cases hcy : (c.y : Int) = (y : Int) + dy
    · have hdy : (c.y : Int) - (y : Int) = dy := by omega
      have hnotin : ((c.y : Int) - (y : Int)) ∉ dys := by
        rw [hdy]
        exact hnd'.1
      rw [if_neg (fun hcon => hnotin hcon.1)]
      by_cases hinner : ((c.x : Int) - (x : Int)) ∈ influenceOffsets ∧
          c.x < size ∧ c.y < size
      · rw [if_pos ⟨hinner.1, hcy, hinner.2⟩,
          if_pos ⟨by rw [hdy]; exact List.mem_cons_self _ _, hinner⟩, hdy]
      · rw [if_neg (fun hcon => hinner ⟨hcon.1, hcon.2.2⟩), if_neg]
        rintro ⟨h1, h2, h3, h4⟩
        exact hinner ⟨h2, h3, h4⟩
    · have hPinner : ¬(((c.x : Int) - (x : Int)) ∈ influenceOffsets ∧
          (c.y : Int) = (y : Int) + dy ∧ c.x < size ∧ c.y < size) :=
        fun hcon => hcy hcon.2.1
      rw [if_neg hPinner]
      by_cases htail : ((c.y : Int) - (y : Int)) ∈ dys ∧
          ((c.x : Int) - (x : Int)) ∈ influenceOffsets ∧
          c.x < size ∧ c.y < size
      · rw [if_pos htail, if_pos ⟨List.mem_cons_of_mem dy htail.1, htail.2⟩]
      · rw [if_neg htail, if_neg]
        rintro ⟨h1, h2, h3, h4⟩
        rcases List.mem_cons.mp h1 with h1 | h1
        · exact hcy (by omega)
        · exact htail ⟨h1, h2, h3, h4⟩

lemma getVal_radiate (size x y : Nat) (val : Int) (g : List (List Int))
    (c : Coordinate) :
    getVal (radiate size x y val g) c =
      if c.x < size ∧ c.y < size then
        (getVal g c).map (· + val * influenceWeight (manhattan ⟨x, y⟩ c))
      else getVal g c := by
  have hr : radiate size x y val g =
      influenceOffsets.foldl (radiateRow size x y val) g := rfl
  rw [hr, foldl_radiateRow size x y val influenceOffsets nodup_influenceOffsets]
  have hman : manhattan ⟨x, y⟩ c =
      ((c.x : Int) - x).natAbs + ((c.y : Int) - y).natAbs := by
    unfold manhattan
    simp only
    omega
  by_cases hbounds : c.x < size ∧ c.y < size
  · rw [if_pos hbounds]
    by_cases hoff : ((c.y : Int) - (y : Int)) ∈ influenceOffsets ∧
        ((c.x : Int) - (x : Int)) ∈ influenceOffsets
    · rw [if_pos ⟨hoff.1, hoff.2, hbounds⟩, hman]
    · rw [if_neg (fun hcon => hoff ⟨hcon.1, hcon.2.1⟩)]
      have hfar : 4 ≤ manhattan ⟨x, y⟩ c := by
        rw [hman]
        rw [mem_influenceOffsets, mem_influenceOffsets] at hoff
        omega
      rw [influenceWeight_eq_zero hfar]
      rw [show val * 0 = 0 from by ring]
      exact (option_map_add_zero (getVal g c)).symm
  · rw [if_neg hbounds, if_neg (fun hcon => hbounds hcon.2.2)]

lemma sameShape_foldl {β : Type} {f : List (List Int) → β → List (List Int)}
    (hf : ∀ g b, sameShape (f g b) g) :
    ∀ (l : List β) (g : List (List Int)), sameShape (l.foldl f g) g := by
  intro l
  induction l with
  | nil =>
    intro g
    exact sameShape_refl g
  | cons b l ih =>
    intro g
    rw [List.foldl_cons]
    exact sameShape_trans (ih (f g b)) (hf g b)

lemma sameShape_radiateStepX (size x y : Nat) (val : Int) (dy : Int)
    (g : List (List Int)) (dx : Int) :
    sameShape (radiateStepX size x y val dy g dx) g := by
  rw [radiateStepX_eq]
  split
  · exact sameShape_addAt g _ _ _
  · exact sameShape_refl g

lemma sameShape_radiateRow (size x y : Nat) (val : Int)
    (g : List (List Int)) (dy : Int) :
    sameShape (radiateRow size x y val g dy) g :=
  sameShape_foldl (fun g2 dx => sameShape_radiateStepX size x y val dy g2 dx)
    influenceOffsets g

lemma sameShape_radiate (size x y : Nat) (val : Int) (g : List (List Int)) :
    sameShape (radiate size x y val g) g :=
  sameShape_foldl (fun g2 dy => sameShape_radiateRow size x y val g2 dy)
    influenceOffsets g

lemma sameShape_influenceCellStep (board : Board) (size yy : Nat)
    (g : List (List Int)) (xx : Nat) :
    sameShape (influenceCellStep board size yy g xx) g := by
  unfold influenceCellStep
  by_cases hst : getCell board ⟨xx, yy⟩ ≠ some PlayerColor.Empty
  · rw [if_pos hst]
    exact sameShape_radiate size xx yy _ g
  · rw [if_neg hst]
    exact sameShape_refl g

lemma sameShape_calculateInfluence (board : Board) :
    sameShape (calculateInfluence board)
      (List.replicate board.length (List.replicate board.length (0 : Int))) := by
  have hc : calculateInfluence board =
      (List.range board.length).foldl (influenceRowStep board board.length)
        (List.replicate board.length (List.replicate board.length (0 : Int))) := rfl
  rw [hc]
  refine sameShape_foldl ?_ _ _
  intro g yy
  exact sameShape_foldl
    (fun g2 xx => sameShape_influenceCellStep board board.length yy g2 xx) _ g

/-- The contribution of the source cell `(xx, yy)` to target cell `c`, as the
loop body computes it. -/
def cellTerm (board : Board) (xx yy : Nat) (c : Coordinate) : Int :=
  if getCell board ⟨xx, yy⟩ ≠ some PlayerColor.Empty then
    (if getCell board ⟨xx, yy⟩ = some PlayerColor.Black then 1 else -1) *
      influenceWeight (manhattan ⟨xx, yy⟩ c)
  else 0

lemma influenceCellStep_getVal (board : Board) (size yy : Nat)
    (g : List (List Int)) (xx : Nat) (c : Coordinate) :
    getVal (influenceCellStep board size yy g xx) c =
      if c.x < size ∧ c.y < size then
        (getVal g c).map (· + cellTerm board xx yy c)
      else getVal g c := by
  unfold influenceCellStep cellTerm
  by_cases hst : getCell board ⟨xx, yy⟩ ≠ some PlayerColor.Empty
  · rw [if_pos hst, if_pos hst, getVal_radiate]
  · rw [if_neg hst, if_neg hst]
    split
    · rw [show ∀ o : Option Int, o.map (· + 0) = o from option_map_add_zero]
    · rfl

lemma foldl_influenceCellStep (board : Board) (size yy : Nat) :
    ∀ (xxs : List Nat) (g : List (List Int)) (c : Coordinate),
      getVal (xxs.foldl (influenceCellStep board size yy) g) c =
      if c.x < size ∧ c.y < size then
        (getVal g c).map
          (· + (xxs.map (fun xx => cellTerm board xx yy c)).sum)
      else getVal g c := by
  intro xxs
  induction xxs with
  | nil =>
    intro g c
    rw [List.foldl_nil]
    split
    · rw [List.map_nil, List.sum_nil, option_map_add_zero]
    · rfl
  | cons xx xxs ih =>
    intro g c
    rw [List.foldl_cons, ih, influenceCellStep_getVal]
    by_cases hb : c.x < size ∧ c.y < size
    · rw [if_pos hb, if_pos hb, if_pos hb, Option.map_map]
      rw [List.map_cons, List.sum_cons]
      congr 1
      funext z
      simp only [Function.comp_apply]
      ring
    · rw [if_neg hb, if_neg hb, if_neg hb]

lemma foldl_influenceRowStep (board : Board) (size : Nat) :
    ∀ (yys : List Nat) (g : List (List Int)) (c : Coordinate),
      getVal (yys.foldl (influenceRowStep board size) g) c =
      if c.x < size ∧ c.y < size then
        (getVal g c).map
          (· + (yys.map (fun yy =>
            ((List.range size).map (fun xx => cellTerm board xx yy c)).sum)).sum)
      else getVal g c := by
  intro yys
  induction yys with
  | nil =>
    intro g c
    rw [List.foldl_nil]
    split
    · rw [List.map_nil, List.sum_nil, option_map_add_zero]
    · rfl
  | cons yy yys ih =>
    intro g c
    rw [List.foldl_cons, ih]
    have hrow : influenceRowStep board size g yy =
        (List.range size).foldl (influenceCellStep board size yy) g := rfl
    rw [hrow, foldl_influenceCellStep]
    by_cases hb : c.x < size ∧ c.y < size
    · rw [if_pos hb, if_pos hb, if_pos hb, Option.map_map]
      rw [List.map_cons, List.sum_cons]
      congr 1
      funext z
      simp only [Function.comp_apply]
      ring
    · rw [if_neg hb, if_neg hb, if_neg hb]

lemma getVal_replicate_zero (n : Nat) (c : Coordinate) :
    getVal (List.replicate n (List.replicate n (0 : Int))) c =
      if c.x < n ∧ c.y < n then some 0 else none := by
  unfold getVal
  rw [List.get?_eq_getElem?, List.getElem?_replicate]
  by_cases hy : c.y < n
  · rw [if_pos hy]
    simp only [Option.some_bind]
    rw [List.get?_eq_getElem?, List.getElem?_replicate]
    by_cases hx : c.x < n
    · rw [if_pos hx, if_pos ⟨hx, hy⟩]
    · rw [if_neg hx, if_neg (fun h => hx h.1)]
  · rw [if_neg hy, if_neg (fun h => hy h.2)]
    rfl

lemma list_range_map_sum (n : Nat) (f : Nat → Int) :
    ((List.range n).map f).sum = ∑ i ∈ Finset.range n, f i := by
  induction n with
  | zero => simp
  | succ n ih =>
    rw [List.range_succ, List.map_append, List.sum_append,
      Finset.sum_range_succ, ih]
    simp

lemma sum_allCells (size : Nat) (f : Coordinate → Int) :
    ∑ p ∈ allCells size, f p =
      ∑ yy ∈ Finset.range size, ∑ xx ∈ Finset.range size, f ⟨xx, yy⟩ := by
  unfold allCells
  rw [Finset.sum_image (by
    intro p hp q hq heq
    injection heq with h1 h2
    exact Prod.ext h1 h2)]
  rw [Finset.sum_product]
  exact Finset.sum_comm

lemma getCell_some_of_inbounds {board : Board} (hsq : Square board)
    {xx yy : Nat} (hx : xx < board.length) (hy : yy < board.length) :
    ∃ v, getCell board ⟨xx, yy⟩ = some v := by
  cases hrow : board.get? yy with
  | none =>
    have := List.get?_eq_none.mp hrow
    omega
  | some row =>
    have hlen : row.length = board.length := hsq row (List.get?_mem hrow)
    cases hcell : row.get? xx with
    | none =>
      have := List.get?_eq_none.mp hcell
      omega
    | some v =>
      refine ⟨v, ?_⟩
      unfold getCell
      simp only
      rw [hrow, Option.some_bind, hcell]

lemma cellTerm_eq_contribution {board : Board} (hsq : Square board)
    {xx yy : Nat} (hx : xx < board.length) (hy : yy < board.length)
    (c : Coordinate) :
    cellTerm board xx yy c = influenceContribution board ⟨xx, yy⟩ c := by
  obtain ⟨v, hv⟩ := getCell_some_of_inbounds hsq hx hy
  unfold cellTerm influenceContribution
  rw [hv]
  cases v with
  | Black =>
    rw [if_pos (by intro h; injection h with h; cases h)]
    rw [if_pos rfl, one_mul]
  | White =>
    rw [if_pos (by intro h; injection h with h; cases h)]
    rw [if_neg (by intro h; injection h with h; cases h)]
    ring
  | Empty =>
    rw [if_neg (by intro h; exact h rfl)]

/-- C6: on any (square) board, `calculateInfluence` returns a same-shaped
grid whose value at each cell is the sum, over all board cells, of the signed
decayed contribution of the stone there: +1·weight for Black, −1·weight for
White, weight 6/4/2/1 at Manhattan distance 0/1/2/3 and 0 beyond;
contributions of different stones add.  The result is a function of the board
alone. -/
theorem calculateInfluence_spec (board : Board) (hsq : Square board) :
    (calculateInfluence board).length = board.length ∧
    (∀ row ∈ calculateInfluence board, row.length = board.length) ∧
    (∀ c : Coordinate, c.x < board.length → c.y < board.length →
      getVal (calculateInfluence board) c =
        some (∑ p ∈ allCells board.length, influenceContribution board p c)) := by
  have hshape := sameShape_calculateInfluence board
  have hlen : (calculateInfluence board).length = board.length := by
    rw [sameShape_length hshape, List.length_replicate]
  refine ⟨hlen, ?_, ?_⟩
  · intro row hrow
    obtain ⟨i, hi⟩ := List.get?_of_mem hrow
    have hi_lt : i < board.length := by
      have : ¬(calculateInfluence board).length ≤ i := by
        intro hcon
        rw [List.get?_eq_none.mpr hcon] at hi
        cases hi
      omega
    have := hshape i
    rw [hi, List.get?_eq_getElem?, List.getElem?_replicate, if_pos hi_lt] at this
    simp only [Option.map_some', List.length_replicate] at this
    injection this
  · intro c hx hy
    have hc : calculateInfluence board =
        (List.range board.length).foldl (influenceRowStep board board.length)
          (List.replicate board.length
            (List.replicate board.length (0 : Int))) := rfl
    rw [hc, foldl_influenceRowStep, if_pos ⟨hx, hy⟩, getVal_replicate_zero,
      if_pos ⟨hx, hy⟩]
    simp only [Option.map_some', zero_add]
    congr 1
    rw [list_range_map_sum, sum_allCells]
    refine Finset.sum_congr rfl ?_
    intro yy hyy
    rw [list_range_map_sum]
    refine Finset.sum_congr rfl ?_
    intro xx hxx
    exact cellTerm_eq_contribution hsq (Finset.mem_range.mp hxx)
      (Finset.mem_range.mp hyy) c

theorem calculateInfluence_spec_witness :
    Square ([[PlayerColor.Black]] : Board) ∧
    getVal (calculateInfluence [[PlayerColor.Black]]) ⟨0, 0⟩ =
      some (∑ p ∈ allCells 1,
        influenceContribution [[PlayerColor.Black]] p ⟨0, 0⟩) :=
  ⟨by decide,
   (calculateInfluence_spec [[PlayerColor.Black]] (by decide)).2.2 ⟨0, 0⟩
     (by decide) (by decide)⟩

/-- The territory threshold constant of `estimateScore`. -/
def THRESHOLD : Int := 2

structure ScoreEstimate where
  leadColor : PlayerColor
  diff : ℚ
deriving Repr

/-- The body of the cell scan in `estimateScore`: count Black-controlled and
White-controlled cells. -/
def scoreCellStep (q : Nat × Nat) (v : Int) : Nat × Nat :=
  (if v > THRESHOLD then q.1 + 1 else q.1,
   if v < -THRESHOLD then q.2 + 1 else q.2)

/-- The row scan of `estimateScore`. -/
def scoreRowStep (p : Nat × Nat) (row : List Int) : Nat × Nat :=
  row.foldl scoreCellStep p

/-- `estimateScore` from the source: influence cell counts above/below the
threshold, plus each side's captures, komi 7.5 to White; absolute difference
and its sign. -/
def estimateScore (s : GameState) : ScoreEstimate :=
  let influence := calculateInfluence s.board
  let counts := influence.foldl scoreRowStep (0, 0)
  let blackPoints : ℚ := (counts.1 : ℚ) + (s.capturedWhite : ℚ)
  let whitePoints : ℚ := (counts.2 : ℚ) + (s.capturedBlack : ℚ) + 7.5
  let diff := blackPoints - whitePoints
  { leadColor := if diff > 0 then PlayerColor.Black else PlayerColor.White
    diff := |diff| }

lemma scoreCellStep_foldl (row : List Int) : ∀ q : Nat × Nat,
    row.foldl scoreCellStep q =
      (q.1 + (row.filter (fun v => 2 < v)).length,
       q.2 + (row.filter (fun v => v < -2)).length) := by
  induction row with
  | nil =>
    intro q
    simp
  | cons v row ih =>
    intro q
    rw [List.foldl_cons, ih]
    by_cases h1 : 2 < v <;> by_cases h2 : v < -2
    · exfalso
      omega
    all_goals
      simp only [scoreCellStep, THRESHOLD, List.filter_cons, decide_eq_true_eq,
        h1, h2, List.length_cons, Prod.mk.injEq]
      norm_num
      try omega


lemma scoreRowStep_foldl (rows : List (List Int)) : ∀ p : Nat × Nat,
    rows.foldl scoreRowStep p =
      (p.1 + (rows.map (fun row => (row.filter (fun v => 2 < v)).length)).sum,
       p.2 + (rows.map (fun row => (row.filter (fun v => v < -2)).length)).sum) := by
  induction rows with
  | nil =>
    intro p
    simp
  | cons row rows ih =>
    intro p
    rw [List.foldl_cons]
    have hstep : scoreRowStep p row = row.foldl scoreCellStep p := rfl
    rw [hstep, scoreCellStep_foldl, ih]
    simp only [List.map_cons, List.sum_cons, Prod.mk.injEq]
    constructor <;> omega

/-- Number of influence cells strictly above the +2 threshold. -/
def blackControlled (s : GameState) : Nat :=
  ((calculateInfluence s.board).map
    (fun row => (row.filter (fun v => 2 < v)).length)).sum

/-- Number of influence cells strictly below the −2 threshold. -/
def whiteControlled (s : GameState) : Nat :=
  ((calculateInfluence s.board).map
    (fun row => (row.filter (fun v => v < -2)).length)).sum

/-- Black's point total: controlled cells plus White stones captured. -/
def blackTotal (s : GameState) : ℚ := blackControlled s + s.capturedWhite

/-- White's point total: controlled cells plus Black stones captured plus the
komi of 7.5. -/
def whiteTotal (s : GameState) : ℚ := whiteControlled s + s.capturedBlack + 7.5

lemma estimateScore_eq (s : GameState) :
    estimateScore s =
      { leadColor := if blackTotal s - whiteTotal s > 0 then PlayerColor.Black
          else PlayerColor.White
        diff := |blackTotal s - whiteTotal s| } := by
  have hcounts : (calculateInfluence s.board).foldl scoreRowStep (0, 0) =
      (blackControlled s, whiteControlled s) := by
    rw [scoreRowStep_foldl]
    unfold blackControlled whiteControlled
    simp
  unfold estimateScore
  simp only [hcounts]
  unfold blackTotal whiteTotal blackControlled whiteControlled
  rfl

/-- C7: `estimateScore` reports a margin equal to the absolute difference of
Black's total (cells with influence above +2 plus Black's captures) and
White's total (cells below −2 plus White's captures plus komi 7.5), and a
leading color equal to the sign of the difference; the two totals are never
equal (the komi is non-integer), so the margin is strictly positive and a
leading color is always defined. -/
theorem estimateScore_spec (s : GameState) :
    (estimateScore s).leadColor =
      (if blackTotal s - whiteTotal s > 0 then PlayerColor.Black
        else PlayerColor.White) ∧
    (estimateScore s).diff = |blackTotal s - whiteTotal s| ∧
    blackTotal s ≠ whiteTotal s ∧
    0 < (estimateScore s).diff ∧
    ((estimateScore s).leadColor = PlayerColor.Black ↔ whiteTotal s < blackTotal s) ∧
    ((estimateScore s).leadColor = PlayerColor.White ↔ blackTotal s < whiteTotal s) := by
  have hne : blackTotal s ≠ whiteTotal s := by
    intro heq
    unfold blackTotal whiteTotal at heq
    have h3 : (2 * (blackControlled s + s.capturedWhite) : ℤ) =
        (2 * (whiteControlled s + s.capturedBlack) + 15 : ℤ) := by
      have h2 : ((2 * (blackControlled s + s.capturedWhite) : ℤ) : ℚ) =
          ((2 * (whiteControlled s + s.capturedBlack) + 15 : ℤ) : ℚ) := by
        push_cast
        push_cast at heq
        linarith
      exact_mod_cast h2
    omega
  rw [estimateScore_eq]
  simp only
  have habs : (0 : ℚ) < |blackTotal s - whiteTotal s| :=
    abs_pos.mpr (sub_ne_zero.mpr hne)
  refine ⟨trivial, trivial, hne, habs, ?_, ?_⟩
  · by_cases h : blackTotal s - whiteTotal s > 0
    · rw [if_pos h]
      exact ⟨fun _ => by linarith, fun _ => rfl⟩
    · rw [if_neg h]
      constructor
      · intro hcon
        cases hcon
      · intro hlt
        exfalso
        apply h
        linarith
  · by_cases h : blackTotal s - whiteTotal s > 0
    · rw [if_pos h]
      constructor
      · intro hcon
        cases hcon
      · intro hlt
        linarith
    · rw [if_neg h]
      refine ⟨fun _ => ?_, fun _ => rfl⟩
      have hle : blackTotal s ≤ whiteTotal s := by linarith
      exact lt_of_le_of_ne hle hne

/-- The per-candidate validation used by `getRandomValidMove`: quick
emptiness check, then the full rules check via `playMove`. -/
def tryCell (s : GameState) (c : Coordinate) : Option Coordinate :=
  if getCell s.board c = some PlayerColor.Empty then
    match playMove s c.x c.y with
    | .accepted _ => some c
    | _ => none
  else none

/-- The board coordinates in row-major order (the fallback scan order). -/
def rowMajor (size : Nat) : List Coordinate :=
  (List.range size).flatMap fun y => (List.range size).map fun x => ⟨x, y⟩

/-- `getRandomValidMove` from the source: up to 50 random empty-cell picks
validated through `playMove` (the oracle `rand` supplies
`Math.floor(Math.random() * size)` pairs, which lie in `[0, size)`), then a
deterministic row-major scan; `none` when the scan also finds nothing. -/
def getRandomValidMove (gameState : GameState) (rand : Nat → Nat × Nat) :
    Option Coordinate :=
  -- attempts = 50 in the source
  match (List.range 50).findSome?
      (fun i => tryCell gameState ⟨(rand i).1, (rand i).2⟩) with
  | some c => some c
  | none => (rowMajor gameState.boardSize).findSome? (tryCell gameState)

lemma mem_rowMajor {size : Nat} {c : Coordinate} :
    c ∈ rowMajor size ↔ c.x < size ∧ c.y < size := by
  unfold rowMajor
  rw [List.mem_flatMap]
  constructor
  · rintro ⟨y, hy, hc⟩
    rw [List.mem_map] at hc
    rcases hc with ⟨x, hx, rfl⟩
    exact ⟨List.mem_range.mp hx, List.mem_range.mp hy⟩
  · rintro ⟨hx, hy⟩
    refine ⟨c.y, List.mem_range.mpr hy, ?_⟩
    rw [List.mem_map]
    exact ⟨c.x, List.mem_range.mpr hx, rfl⟩

lemma tryCell_eq_some {s : GameState} {c r : Coordinate}
    (h : tryCell s c = some r) :
    r = c ∧ getCell s.board c = some PlayerColor.Empty ∧
      ∃ s2, playMove s c.x c.y = PlayOutcome.accepted s2 := by
  unfold tryCell at h
  split at h
  · split at h
    · injection h with h
      exact ⟨h.symm, by assumption, _, by assumption⟩
    · cases h
  · cases h

lemma tryCell_eq_none {s : GameState} {c : Coordinate}
    (h : getCell s.board c = some PlayerColor.Empty →
      ∀ s2, playMove s c.x c.y ≠ PlayOutcome.accepted s2) :
    tryCell s c = none := by
  unfold tryCell
  split
  · split
    · rename_i s2 hs2
      exact absurd hs2 (h (by assumption) s2)
    · rfl
  · rfl

/-- C8: `getRandomValidMove` returns `none` exactly when no empty cell
admits an accepted move (regardless of the random oracle, thanks to the
deterministic row-major fallback scan), and any returned coordinate is an
empty cell on which `playMove` succeeds. -/
theorem getRandomValidMove_spec (s : GameState) (rand : Nat → Nat × Nat)
    (hWF : WellFormed s)
    (hrand : ∀ i, (rand i).1 < s.boardSize ∧ (rand i).2 < s.boardSize) :
    (getRandomValidMove s rand = none ↔
      ∀ c : Coordinate, c.x < s.boardSize → c.y < s.boardSize →
        getCell s.board c = some PlayerColor.Empty →
        ∀ s2, playMove s c.x c.y ≠ PlayOutcome.accepted s2) ∧
    (∀ c, getRandomValidMove s rand = some c →
      getCell s.board c = some PlayerColor.Empty ∧
      ∃ s2, playMove s c.x c.y = PlayOutcome.accepted s2) := by
  constructor
  · constructor
    · intro hnone c hx hy hempty s2 hacc
      unfold getRandomValidMove at hnone
      split at hnone
      · cases hnone
      · rw [List.findSome?_eq_none_iff] at hnone
        have hc := hnone c (mem_rowMajor.mpr ⟨hx, hy⟩)
        unfold tryCell at hc
        rw [if_pos hempty, hacc] at hc
        cases hc
    · intro hnolegal
      unfold getRandomValidMove
      have htry : ∀ c : Coordinate, c.x < s.boardSize → c.y < s.boardSize →
          tryCell s c = none := by
        intro c hx hy
        exact tryCell_eq_none (fun hempty => hnolegal c hx hy hempty)
      have h1 : (List.range 50).findSome?
          (fun i => tryCell s ⟨(rand i).1, (rand i).2⟩) = none := by
        rw [List.findSome?_eq_none_iff]
        intro i hi
        exact htry ⟨(rand i).1, (rand i).2⟩ (hrand i).1 (hrand i).2
      have h2 : (rowMajor s.boardSize).findSome? (tryCell s) = none := by
        rw [List.findSome?_eq_none_iff]
        intro c hc
        exact htry c (mem_rowMajor.mp hc).1 (mem_rowMajor.mp hc).2
      rw [h1]
      exact h2
  · intro c hsome
    unfold getRandomValidMove at hsome
    split at hsome
    · rename_i r hr
      injection hsome with hsome
      subst hsome
      rcases List.exists_of_findSome?_eq_some hr with ⟨i, -, hf⟩
      rcases tryCell_eq_some hf with ⟨rfl, h1, h2⟩
      exact ⟨h1, h2⟩
    · rcases List.exists_of_findSome?_eq_some hsome with ⟨a, -, hf⟩
      rcases tryCell_eq_some hf with ⟨rfl, h1, h2⟩
      exact ⟨h1, h2⟩

theorem getRandomValidMove_spec_witness :
    WellFormed (createInitialState 1) ∧
    (∀ c, getRandomValidMove (createInitialState 1) (fun _ => (0, 0)) = some c →
      getCell (createInitialState 1).board c = some PlayerColor.Empty ∧
      ∃ s2, playMove (createInitialState 1) c.x c.y = PlayOutcome.accepted s2) :=
  ⟨by decide,
   (getRandomValidMove_spec (createInitialState 1) (fun _ => (0, 0)) (by decide)
     (fun i => ⟨Nat.one_pos, Nat.one_pos⟩)).2⟩

/-!
Aliasing model for the copy-on-write discipline of `playMove`.  JavaScript
grids are arrays of row objects; mutation through one reference is visible
through every alias.  A `Heap` stores the row objects, a grid is a list of
row references, and `playMoveH` mirrors `playMove` with every write
performed through references — so the claim that the caller's grid is not
mutated becomes a real statement instead of being true by purity.
-/

structure Heap where
  rows : List (List PlayerColor)

/-- The board contents seen through a list of row references. -/
def gridVal (h : Heap) (g : List Nat) : Board :=
  g.map fun r => (h.rows.get? r).getD []

/-- `grid[yy][xx] = v` performed through the row reference `grid[yy]`. -/
def writeCell (h : Heap) (g : List Nat) (yy xx : Nat) (v : PlayerColor) :
    Heap :=
  match g.get? yy with
  | some r =>
    match h.rows.get? r with
    | some row => { rows := h.rows.set r (row.set xx v) }
    | none => h
  | none => h

/-- `state.board.map(row => [...row])`: allocate one fresh row object per
row (copying its contents) and return the new grid of references. -/
def cloneGrid (h : Heap) (g : List Nat) : Heap × List Nat :=
  ({ rows := h.rows ++ gridVal h g },
   (List.range g.length).map fun i => h.rows.length + i)

/-- Group removal writing through the cloned grid's row references. -/
def removeGroupH (h : Heap) (g : List Nat) (group : List Coordinate) : Heap :=
  group.foldl (fun hh stone => writeCell hh g stone.y stone.x PlayerColor.Empty) h

/-- The capture-scan body of `playMove`, on the heap. -/
def captureStepH (opp : PlayerColor) (g : List Nat) (st : Heap × Nat)
    (n : Coordinate) : Heap × Nat :=
  if getCell (gridVal st.1 g) n = some opp then
    if (getGroupLiberties (gridVal st.1 g) n opp).liberties = 0 then
      (removeGroupH st.1 g (getGroupLiberties (gridVal st.1 g) n opp).group,
       st.2 + (getGroupLiberties (gridVal st.1 g) n opp).group.length)
    else st
  else st

/-- The heap after the clone and the placement `newBoard[y][x] = player`. -/
def afterCloneHeap (h : Heap) (g : List Nat) (s : GameState) (x y : Nat) :
    Heap :=
  writeCell (cloneGrid h g).1 (cloneGrid h g).2 y x s.currentPlayer

/-- The capture scan of `playMove`, on the heap. -/
def captureFoldH (h : Heap) (g : List Nat) (s : GameState) (x y : Nat) :
    Heap × Nat :=
  (getNeighbors ⟨x, y⟩ s.boardSize).foldl
    (captureStepH (oppOf s.currentPlayer) (cloneGrid h g).2)
    (afterCloneHeap h g s x y, 0)

/-- The suicide check and commit of `playMove`, on the heap. -/
def captureAndCommitH (h : Heap) (g : List Nat) (s : GameState) (x y : Nat) :
    PlayOutcome × Heap :=
  if (getGroupLiberties (gridVal (captureFoldH h g s x y).1 (cloneGrid h g).2)
        ⟨x, y⟩ s.currentPlayer).liberties = 0 ∧
      (captureFoldH h g s x y).2 = 0 then
    (.rejected "Suicide move not allowed", (captureFoldH h g s x y).1)
  else
    (.accepted
      { s with
        board := gridVal (captureFoldH h g s x y).1 (cloneGrid h g).2
        currentPlayer := oppOf s.currentPlayer
        moveHistory := s.moveHistory ++ [⟨x, y⟩]
        lastMove := some ⟨x, y⟩
        capturedBlack :=
          if s.currentPlayer = PlayerColor.White
          then s.capturedBlack + (captureFoldH h g s x y).2
          else s.capturedBlack
        capturedWhite :=
          if s.currentPlayer = PlayerColor.Black
          then s.capturedWhite + (captureFoldH h g s x y).2
          else s.capturedWhite },
      (captureFoldH h g s x y).1)

/-- `playMove` on the heap: the caller's state has scalar fields `s` and its
grid is the row references `g` into heap `h`. -/
def playMoveH (h : Heap) (g : List Nat) (s : GameState) (x y : Nat) :
    PlayOutcome × Heap :=
  if s.isGameOver then (.rejected "Game Over", h)
  else
    match (gridVal h g).get? y with
    | none => (.thrown, h)
    | some row =>
      if row.get? x = some PlayerColor.Empty then
        captureAndCommitH h g s x y
      else (.rejected "Spot occupied", h)

/-- Heap rows below `bound` are untouched. -/
def preservesBelow (h h2 : Heap) (bound : Nat) : Prop :=
  ∀ r, r < bound → h2.rows.get? r = h.rows.get? r

lemma preservesBelow_refl (h : Heap) (bound : Nat) : preservesBelow h h bound :=
  fun _ _ => rfl

lemma preservesBelow_trans {h1 h2 h3 : Heap} {bound : Nat}
    (ha : preservesBelow h1 h2 bound) (hb : preservesBelow h2 h3 bound) :
    preservesBelow h1 h3 bound :=
  fun r hr => (hb r hr).trans (ha r hr)

lemma cloneGrid_preserves (h : Heap) (g : List Nat) :
    preservesBelow h (cloneGrid h g).1 h.rows.length := by
  intro r hr
  unfold cloneGrid
  simp only
  rw [List.get?_append hr]

lemma writeCell_cases (h : Heap) (ng : List Nat) (yy xx : Nat)
    (v : PlayerColor) :
    writeCell h ng yy xx v = h ∨
    ∃ r0 row, ng.get? yy = some r0 ∧ h.rows.get? r0 = some row ∧
      writeCell h ng yy xx v = { rows := h.rows.set r0 (row.set xx v) } := by
  cases href : ng.get? yy with
  | none =>
    left
    unfold writeCell
    rw [href]
  | some r0 =>
    cases hrow : h.rows.get? r0 with
    | none =>
      left
      unfold writeCell
      rw [href]
      show (match h.rows.get? r0 with
        | some row => ({ rows := h.rows.set r0 (row.set xx v) } : Heap)
        | none => h) = h
      rw [hrow]
    | some row =>
      right
      refine ⟨r0, row, rfl, hrow, ?_⟩
      unfold writeCell
      rw [href]
      show (match h.rows.get? r0 with
        | some row => ({ rows := h.rows.set r0 (row.set xx v) } : Heap)
        | none => h) = _
      rw [hrow]

lemma writeCell_preserves (h : Heap) (ng : List Nat) (yy xx : Nat)
    (v : PlayerColor) (bound : Nat) (hng : ∀ r ∈ ng, bound ≤ r) :
    preservesBelow h (writeCell h ng yy xx v) bound := by
  intro r hr
  rcases writeCell_cases h ng yy xx v with hw | ⟨r0, row, href, hrow, hw⟩
  · rw [hw]
  · rw [hw]
    simp only
    have hr0 : bound ≤ r0 := hng r0 (List.get?_mem href)
    rw [List.get?_set_ne _ _ (by omega)]

lemma removeGroupH_preserves (ng : List Nat) (bound : Nat)
    (hng : ∀ r ∈ ng, bound ≤ r) :
    ∀ (group : List Coordinate) (h : Heap),
      preservesBelow h (removeGroupH h ng group) bound := by
  intro group
  induction group with
  | nil =>
    intro h
    exact preservesBelow_refl h bound
  | cons stone group ih =>
    intro h
    have hstep : removeGroupH h ng (stone :: group) =
        removeGroupH (writeCell h ng stone.y stone.x PlayerColor.Empty)
          ng group := by
      unfold removeGroupH
      rw [List.foldl_cons]
    rw [hstep]
    exact preservesBelow_trans
      (writeCell_preserves h ng stone.y stone.x PlayerColor.Empty bound hng)
      (ih (writeCell h ng stone.y stone.x PlayerColor.Empty))

lemma captureStepH_preserves (opp : PlayerColor) (ng : List Nat)
    (bound : Nat) (hng : ∀ r ∈ ng, bound ≤ r) (st : Heap × Nat)
    (n : Coordinate) :
    preservesBelow st.1 (captureStepH opp ng st n).1 bound := by
  unfold captureStepH
  split
  · split
    · exact removeGroupH_preserves ng bound hng _ st.1
    · exact preservesBelow_refl st.1 bound
  · exact preservesBelow_refl st.1 bound

lemma captureFoldH_preserves (opp : PlayerColor) (ng : List Nat)
    (bound : Nat) (hng : ∀ r ∈ ng, bound ≤ r) :
    ∀ (L : List Coordinate) (st : Heap × Nat),
      preservesBelow st.1 (L.foldl (captureStepH opp ng) st).1 bound := by
  intro L
  induction L with
  | nil =>
    intro st
    exact preservesBelow_refl st.1 bound
  | cons n L ih =>
    intro st
    rw [List.foldl_cons]
    exact preservesBelow_trans (captureStepH_preserves opp ng bound hng st n)
      (ih (captureStepH opp ng st n))

lemma cloneGrid_refs_fresh (h : Heap) (g : List Nat) :
    ∀ r ∈ (cloneGrid h g).2, h.rows.length ≤ r := by
  intro r hr
  unfold cloneGrid at hr
  simp only [List.mem_map, List.mem_range] at hr
  rcases hr with ⟨i, -, rfl⟩
  omega

lemma playMoveH_heap_preserves (h : Heap) (g : List Nat) (s : GameState)
    (x y : Nat) :
    preservesBelow h (playMoveH h g s x y).2 h.rows.length := by
  unfold playMoveH
  split
  · exact preservesBelow_refl h _
  · split
    · exact preservesBelow_refl h _
    · split
      · have hfresh := cloneGrid_refs_fresh h g
        have h1 := cloneGrid_preserves h g
        have h2w : preservesBelow (cloneGrid h g).1 (afterCloneHeap h g s x y)
            h.rows.length :=
          writeCell_preserves (cloneGrid h g).1 (cloneGrid h g).2 y x
            s.currentPlayer h.rows.length hfresh
        have h3 : preservesBelow (afterCloneHeap h g s x y)
            (captureFoldH h g s x y).1 h.rows.length :=
          captureFoldH_preserves (oppOf s.currentPlayer) (cloneGrid h g).2
            h.rows.length hfresh (getNeighbors ⟨x, y⟩ s.boardSize)
            (afterCloneHeap h g s x y, 0)
        have hchain : preservesBelow h (captureFoldH h g s x y).1
            h.rows.length :=
          preservesBelow_trans (preservesBelow_trans h1 h2w) h3
        unfold captureAndCommitH
        split
        · exact hchain
        · exact hchain
      · exact preservesBelow_refl h _

/-- C3: on every rejection (game over, occupied, or suicide), the caller's
grid is untouched: reading the original row references after the call gives
exactly the pre-call contents, because all writes of `playMove` go through
the freshly allocated clone rows.  (The scalar fields of the state are
passed by value and cannot be mutated.) -/
theorem playMove_rejection_no_mutation (h : Heap) (g : List Nat)
    (s : GameState) (x y : Nat)
    (hvalid : ∀ r ∈ g, r < h.rows.length) (err : String) (h2 : Heap)
    (hrej : playMoveH h g s x y = (PlayOutcome.rejected err, h2)) :
    gridVal h2 g = gridVal h g := by
  have hpres : preservesBelow h h2 h.rows.length := by
    have := playMoveH_heap_preserves h g s x y
    rw [hrej] at this
    exact this
  unfold gridVal
  refine List.map_congr_left ?_
  intro r hr
  rw [hpres r (hvalid r hr)]

theorem playMove_rejection_no_mutation_witness :
    (∀ r ∈ [0], r < (Heap.mk [[PlayerColor.Empty]]).rows.length) ∧
    gridVal (Heap.mk [[PlayerColor.Empty]]) [0] =
      gridVal (Heap.mk [[PlayerColor.Empty]]) [0] :=
  ⟨by decide,
   playMove_rejection_no_mutation (Heap.mk [[PlayerColor.Empty]]) [0]
     (createInitialState 1) 1 0 (by decide) "Spot occupied"
     (Heap.mk [[PlayerColor.Empty]]) rfl⟩
